import Mathlib

/- Shallow embedding of the NHL-Totals dashboard (src/app.py): the goalie
name reconciliation and projection pipeline. Python floats are modelled
as exact rationals, Python strings as Lean Strings (lists of Unicode
characters compared by code point), pandas DataFrames as lists of rows,
and Python dicts as insertion-ordered association lists with distinct
keys. The fuzzy matching is difflib with isjunk = None, embedded in
full: find_longest_match, the matching-block recursion, ratio,
quick_ratio and real_quick_ratio. -/

set_option linter.unusedVariables false

/- ------------------------------------------------------------------
   difflib.SequenceMatcher (isjunk = None), as called through
   difflib.get_close_matches(word, possibilities, n=1, cutoff):
   seq1 = a = a possibility, seq2 = b = word.
   ------------------------------------------------------------------ -/

/-- Positions of character c in b, ascending: the b2j entry for c built
by SequenceMatcher.__chain_b appending indices while scanning b. -/
def indicesOf (b : List Char) (c : Char) : List Nat :=
  (List.range b.length).filter (fun j => b.getD j 'a' == c)

/-- The b2j mapping of SequenceMatcher.__chain_b with the autojunk purge
of popular elements, which is active only when b has at least 200
elements (isjunk = None, so the junk set is empty and no junk purge
happens). -/
def b2j (b : List Char) (c : Char) : List Nat :=
  let idxs := indicesOf b c
  if 200 ≤ b.length ∧ b.length / 100 + 1 < idxs.length then [] else idxs

/-- Loop state of find_longest_match: the best block found so far and
the j2len row being built. -/
structure FLMState where
  besti : Nat
  bestj : Nat
  bestsize : Nat
  j2len : Nat → Nat

/-- One iteration of the inner j-loop of find_longest_match: prev is the
previous row j2len (read through j2lenget), st.j2len is the newj2len row
being built; k = j2len.get(j-1, 0) + 1, where the j = 0 case reads the
absent key -1 and so gets 0. -/
def innerStep (prev : Nat → Nat) (i : Nat) (st : FLMState) (j : Nat) : FLMState :=
  let k := (if j = 0 then 0 else prev (j - 1)) + 1
  let newj2len := fun jq => if jq = j then k else st.j2len jq
  if st.bestsize < k then
    { besti := i + 1 - k, bestj := j + 1 - k, bestsize := k, j2len := newj2len }
  else
    { st with j2len := newj2len }

/-- One iteration of the outer i-loop of find_longest_match: fold the
inner loop over the positions of a[i] in b (the `continue` below blo and
the `break` at bhi amount to the window filter, the positions being
ascending), starting from a fresh newj2len row. -/
def processRow (a b : List Char) (blo bhi : Nat) (st : FLMState) (i : Nat) : FLMState :=
  let js := (b2j b (a.getD i 'a')).filter (fun j => decide (blo ≤ j) && decide (j < bhi))
  js.foldl (innerStep st.j2len i) { st with j2len := fun _ => 0 }

/-- The nested loops of find_longest_match over the window
[alo, ahi) x [blo, bhi), from besti, bestj, bestsize = alo, blo, 0. -/
def flmLoop (a b : List Char) (alo ahi blo bhi : Nat) : FLMState :=
  (List.range' alo (ahi - alo)).foldl (processRow a b blo bhi) ⟨alo, blo, 0, fun _ => 0⟩

/-- The first while loop of find_longest_match, extending the best block
leftwards while besti > alo, bestj > blo and the characters are equal
(with isjunk = None every element is non-junk). Structural recursion on
besti; the pattern besti + 1 with guard alo ≤ besti is besti > alo. -/
def extendLeft (a b : List Char) (alo blo : Nat) :
    Nat → Nat → Nat → Nat × Nat × Nat
  | 0, bestj, bestsize => (0, bestj, bestsize)
  | besti + 1, bestj, bestsize =>
    if alo ≤ besti ∧ blo < bestj ∧ a.getD besti 'a' == b.getD (bestj - 1) 'a' then
      extendLeft a b alo blo besti (bestj - 1) (bestsize + 1)
    else (besti + 1, bestj, bestsize)

/-- The second while loop of find_longest_match, extending the best
block rightwards. fuel = ahi - (besti + bestsize) at every call, so
fuel = 0 exactly when the loop condition besti + bestsize < ahi is
false, and the guard repeats the whole condition. -/
def extendRight (a b : List Char) (ahi bhi besti bestj : Nat) :
    Nat → Nat → Nat
  | 0, bestsize => bestsize
  | fuel + 1, bestsize =>
    if besti + bestsize < ahi ∧ bestj + bestsize < bhi ∧
        a.getD (besti + bestsize) 'a' == b.getD (bestj + bestsize) 'a' then
      extendRight a b ahi bhi besti bestj fuel (bestsize + 1)
    else bestsize

/-- SequenceMatcher.find_longest_match on [alo, ahi) x [blo, bhi).
With isjunk = None the two junk-extension while loops never fire (the
junk set is empty), leaving the DP loops and the two plain extensions. -/
def find_longest_match (a b : List Char) (alo ahi blo bhi : Nat) : Nat × Nat × Nat :=
  let st := flmLoop a b alo ahi blo bhi
  let r1 := extendLeft a b alo blo st.besti st.bestj st.bestsize
  (r1.1, r1.2.1, extendRight a b ahi bhi r1.1 r1.2.1 (ahi - (r1.1 + r1.2.2)) r1.2.2)

/-- Total size of the matching blocks of get_matching_blocks on a
window: the queue recursion of get_matching_blocks restricted to the sum
of block sizes, which is what ratio consumes (the final merge of
adjacent blocks preserves the sum). The source recurses into the left
part only when alo < i and blo < j and the right part only when
i + k < ahi and j + k < bhi. fuel only bounds the recursion depth: every
recursive window is strictly narrower in a (find_longest_match returns
alo ≤ i and i + k ≤ ahi whenever k > 0), so fuel = ahi - alo + 1 at the
top call never runs out before the k = 0 base case. -/
def matchedSize (a b : List Char) : Nat → Nat → Nat → Nat → Nat → Nat
  | 0, _, _, _, _ => 0
  | fuel + 1, alo, ahi, blo, bhi =>
    let r := find_longest_match a b alo ahi blo bhi
    let i := r.1
    let j := r.2.1
    let k := r.2.2
    if k = 0 then 0
    else
      (if alo < i ∧ blo < j then matchedSize a b fuel alo i blo j else 0) + k +
      (if i + k < ahi ∧ j + k < bhi then matchedSize a b fuel (i + k) ahi (j + k) bhi else 0)

/-- difflib._calculate_ratio: 2 * matches / length, and 1.0 when both
sequences are empty. -/
def calcRatio (ms length : Nat) : ℚ :=
  if length = 0 then 1 else 2 * (ms : ℚ) / (length : ℚ)

/-- SequenceMatcher.ratio() for seq1 = a, seq2 = b. -/
def seqRatio (a b : List Char) : ℚ :=
  calcRatio (matchedSize a b (a.length + 1) 0 a.length 0 b.length) (a.length + b.length)

/-- One iteration of the counting loop of
SequenceMatcher.quick_ratio(): the state is (avail, seen, matches);
fullbcount.get(elt, 0) is the number of occurrences of elt in b, and
avail[elt] can go negative. -/
def quickStep (b : List Char) (st : (Char → Int) × (Char → Bool) × Nat) (c : Char) :
    (Char → Int) × (Char → Bool) × Nat :=
  let numb : Int := if st.2.1 c then st.1 c else (b.count c : Int)
  ((fun cq => if cq = c then numb - 1 else st.1 cq),
   (fun cq => cq == c || st.2.1 cq),
   if 0 < numb then st.2.2 + 1 else st.2.2)

/-- The matches count of SequenceMatcher.quick_ratio(). -/
def quickMatches (a b : List Char) : Nat :=
  (a.foldl (quickStep b) ((fun _ => 0), (fun _ => false), 0)).2.2

/-- SequenceMatcher.quick_ratio(). -/
def quick_ratio (a b : List Char) : ℚ := calcRatio (quickMatches a b) (a.length + b.length)

/-- SequenceMatcher.real_quick_ratio(). -/
def real_quick_ratio (a b : List Char) : ℚ :=
  calcRatio (min a.length b.length) (a.length + b.length)

/-- Python string < : lexicographic comparison by code point. -/
def pyStrLt : List Char → List Char → Bool
  | [], [] => false
  | [], _ :: _ => true
  | _ :: _, [] => false
  | c :: cs, d :: ds => if c < d then true else if d < c then false else pyStrLt cs ds

/-- Python comparison of (score, string) tuples: q > p. -/
def tupleGt (q p : ℚ × String) : Bool :=
  if p.1 < q.1 then true
  else if q.1 < p.1 then false
  else pyStrLt p.2.data q.2.data

/-- heapq.nlargest(1, l): the singleton holding the largest element
under Python tuple comparison or [] when l is empty; nlargest is
sorted(l, reverse=True)[:1], which by stability keeps the first maximal
element, i.e. a left fold replacing the current best only on strictly
greater. -/
def nlargest1 : List (ℚ × String) → List (ℚ × String)
  | [] => []
  | p :: rest => [rest.foldl (fun best q => if tupleGt q best then q else best) p]

/-- The filtering step of difflib.get_close_matches: a possibility x
enters the result list as (ratio, x) when its real_quick_ratio,
quick_ratio and ratio against word (computed with seq1 = x and
seq2 = word) all reach the cutoff. -/
def gclEntry (word : String) (cutoff : ℚ) (x : String) : Option (ℚ × String) :=
  if cutoff ≤ real_quick_ratio x.data word.data ∧
     cutoff ≤ quick_ratio x.data word.data ∧
     cutoff ≤ seqRatio x.data word.data
  then some (seqRatio x.data word.data, x) else none

/-- difflib.get_close_matches(word, possibilities, n=1, cutoff): filter
the possibilities through the three ratio gates, then return the
largest (ratio, possibility) pair. -/
def get_close_matches (word : String) (possibilities : List String) (cutoff : ℚ) : List String :=
  (nlargest1 (possibilities.filterMap (gclEntry word cutoff))).map (fun p => p.2)

/- ------------------------------------------------------------------
   The goalie DataFrame and reconcile_starters.
   ------------------------------------------------------------------ -/

/-- A row of the goalie DataFrame: columns Name, Team, GSAx. -/
structure GoalieRecord where
  Name : String
  Team : String
  GSAx : ℚ
deriving DecidableEq

/-- The two generic fallback rows appended by reconcile_starters. -/
def sentinels : List GoalieRecord :=
  [⟨"Average Goalie", "NHL", 0⟩, ⟨"Backup/Rookie", "NHL", -(2/5)⟩]

/-- pandas drop_duplicates(subset=[Name]), keep=first: keep each row
whose Name has not appeared before. -/
def dedupGo (seen : List String) : List GoalieRecord → List GoalieRecord
  | [] => []
  | r :: rest =>
    if r.Name ∈ seen then dedupGo seen rest
    else r :: dedupGo (r.Name :: seen) rest

/-- drop_duplicates(subset=[Name]) of the whole frame. -/
def dedupByName (l : List GoalieRecord) : List GoalieRecord := dedupGo [] l

/-- Row order of pandas sort_values(Name): ascending Python string
order. Names are distinct after drop_duplicates, so every comparison
sort returns the same list; we use an insertion sort. -/
def nameLe (r s : GoalieRecord) : Bool := !pyStrLt s.Name.data r.Name.data

/-- Insertion step of the sort_values(Name) model. -/
def insertByName (r : GoalieRecord) : List GoalieRecord → List GoalieRecord
  | [] => [r]
  | s :: rest => if nameLe r s then r :: s :: rest else s :: insertByName r rest

/-- pandas sort_values(Name) modelled as an insertion sort by nameLe. -/
def sortByName (l : List GoalieRecord) : List GoalieRecord := l.foldr insertByName []

/-- One iteration of the reconcile_starters loop over
starters_dict.items(): acc carries (final_starters, new_rows); exact
match first, then get_close_matches with n=1, cutoff=0.6, else
synthesize a row with GSAx 0.00. -/
def reconcileStep (official_names : List String)
    (acc : List (String × String) × List GoalieRecord) (p : String × String) :
    List (String × String) × List GoalieRecord :=
  if p.2 ∈ official_names then (acc.1 ++ [(p.1, p.2)], acc.2)
  else
    match get_close_matches p.2 official_names (3/5) with
    | m :: _ => (acc.1 ++ [(p.1, m)], acc.2)
    | [] => (acc.1 ++ [(p.1, p.2)], acc.2 ++ [⟨p.2, p.1, 0⟩])

/-- app.reconcile_starters. An empty goalie_df returns both inputs
unchanged. Otherwise official_names is read once before the loop, the
loop builds final_starters and new_rows, pd.concat appends new_rows
(the source skips the concat when new_rows is empty, which equals
appending the empty list) and then the two sentinel rows, and the frame
is deduplicated on Name keeping the first and sorted by Name. -/
def reconcile_starters (starters_dict : List (String × String))
    (goalie_df : List GoalieRecord) :
    List (String × String) × List GoalieRecord :=
  if goalie_df.isEmpty then (starters_dict, goalie_df)
  else
    let official_names := goalie_df.map (fun r => r.Name)
    let fs := starters_dict.foldl (reconcileStep official_names) ([], [])
    let goalie_df2 := goalie_df ++ fs.2 ++ sentinels
    (fs.1, sortByName (dedupByName goalie_df2))

/-- The name reconcile_starters assigns to one scraped name; the roster
names are fixed over the whole loop, so the assignment of each pair
depends only on official_names (derived view of reconcileStep, proved
equal to the fold below). -/
def resolveName (official_names : List String) (scraped : String) : String :=
  if scraped ∈ official_names then scraped
  else
    match get_close_matches scraped official_names (3/5) with
    | m :: _ => m
    | [] => scraped

/-- The row reconcile_starters synthesizes for one (team, scraped) pair,
if any (derived view of reconcileStep, proved equal to the fold
below). -/
def synthRow (official_names : List String) (p : String × String) : Option GoalieRecord :=
  if p.2 ∈ official_names then none
  else
    match get_close_matches p.2 official_names (3/5) with
    | _ :: _ => none
    | [] => some ⟨p.2, p.1, 0⟩

/- ------------------------------------------------------------------
   match_vegas_odds, get_gsax and the projection arithmetic of main().
   ------------------------------------------------------------------ -/

/-- app.match_vegas_odds: the odds dict is an association list with
distinct keys; odds_map[matches[0]] looks up a key returned by
get_close_matches over the key list, hence always present (0 is a dummy
for the impossible miss). -/
def match_vegas_odds (home_team_name : String) (odds_map : List (String × ℚ)) : ℚ :=
  if odds_map.isEmpty then 6.5
  else
    match odds_map.lookup home_team_name with
    | some v => v
    | none =>
      let keys := odds_map.map (fun p => p.1)
      match get_close_matches home_team_name keys (1/2) with
      | m :: _ => (odds_map.lookup m).getD 0
      | [] => 6.5

/-- app.get_gsax: the GSAx of the first row of goalie_df whose Name is
goalie_name (.loc filtering preserves row order and .values[0] takes
the first); the except arm returns 0.0 when no row matches. -/
def get_gsax (goalie_name : String) (goalie_df : List GoalieRecord) : ℚ :=
  match goalie_df.find? (fun r => r.Name == goalie_name) with
  | some r => r.GSAx
  | none => 0

/-- A row of the simulated ratings frame, indexed by team. -/
structure TeamRating where
  off_rating : ℚ
  def_rating : ℚ
deriving DecidableEq

/-- app.LEAGUE_AVG_TOTAL. -/
def LEAGUE_AVG_TOTAL : ℚ := 6.2

/-- The base-total computation of main(): ratings.loc[team] raises for a
missing team and the except arm falls back to LEAGUE_AVG_TOTAL, so the
ratings frame is a partial map and any missing side yields the
fallback. -/
def base_total (ratings : String → Option TeamRating) (home away : String) : ℚ :=
  match ratings home, ratings away with
  | some h, some a =>
    (h.off_rating + a.def_rating) / 2 + (a.off_rating + h.def_rating) / 2
  | _, _ => LEAGUE_AVG_TOTAL

/-- main(): my_proj = base_total - h_gsax - a_gsax. -/
def my_proj (base h_gsax a_gsax : ℚ) : ℚ := base - h_gsax - a_gsax

/-- The three betting signals of the dashboard column 4. -/
inductive Signal where
  | OVER : Signal
  | UNDER : Signal
  | NO_VALUE : Signal
deriving DecidableEq

/-- main(): edge = my_proj - vegas_line; when abs(edge) >= edge_threshold
the signal is BET OVER for edge > 0 and BET UNDER otherwise, else No
Value. -/
def edgeSignal (finalTotal vegasLine threshold : ℚ) : Signal :=
  let edge := finalTotal - vegasLine
  if threshold ≤ |edge| then (if 0 < edge then .OVER else .UNDER) else .NO_VALUE

/- ------------------------------------------------------------------
   Auxiliary mathematical definitions used only in statements/proofs.
   ------------------------------------------------------------------ -/

/-- The sublist a[lo:hi]. -/
def strSlice (a : List Char) (lo hi : Nat) : List Char := (a.drop lo).take (hi - lo)

/-- Number of common characters of two strings counted with
multiplicity (the multiset intersection that quick_ratio counts). -/
def interM (x y : List Char) : Nat :=
  Multiset.card ((x : Multiset Char) ∩ (y : Multiset Char))

/-- A candidate matching block (i, j, k): it lies inside the window
[alo, ahi) x [blo, bhi) and matches equal slices of a and b. -/
def BlockOK (a b : List Char) (alo ahi blo bhi i j k : Nat) : Prop :=
  alo ≤ i ∧ i + k ≤ ahi ∧ blo ≤ j ∧ j + k ≤ bhi ∧
  strSlice a i (i + k) = strSlice b j (j + k)

/-- Meaning of one j2len entry of value m at key j once the rows below
iNext have been processed: a match of length m ending at
(iNext - 1, j). -/
def EntryOK (a b : List Char) (alo blo bhi iNext j m : Nat) : Prop :=
  alo + m ≤ iNext ∧ blo + m ≤ j + 1 ∧ j < bhi ∧ j < b.length ∧
  strSlice a (iNext - m) iNext = strSlice b (j + 1 - m) (j + 1)

/-- Meaning of a whole j2len row. -/
def RowOK (a b : List Char) (alo blo bhi iNext : Nat) (f : Nat → Nat) : Prop :=
  ∀ j, 0 < f j → EntryOK a b alo blo bhi iNext j (f j)

/- ==================================================================
   Theorems.
   ================================================================== -/

/-- Claim C5: the signal computation of main() has edge =
finalTotal - vegasLine and signals OVER exactly when |edge| >= threshold
and edge > 0, UNDER exactly when |edge| >= threshold and edge <= 0, and
NO_VALUE exactly when |edge| < threshold; with finalTotal 6.0 and
vegasLine 5.4 the signal is OVER at threshold 0.5 and NO_VALUE at
threshold 0.7. -/
theorem C5_edge_signal :
    (∀ f v t : ℚ,
      (edgeSignal f v t = .OVER ↔ t ≤ |f - v| ∧ 0 < f - v) ∧
      (edgeSignal f v t = .UNDER ↔ t ≤ |f - v| ∧ f - v ≤ 0) ∧
      (edgeSignal f v t = .NO_VALUE ↔ |f - v| < t)) ∧
    edgeSignal 6 5.4 0.5 = .OVER ∧ edgeSignal 6 5.4 0.7 = .NO_VALUE := by
  refine ⟨fun f v t => ?_, by decide!, by decide!⟩
  unfold edgeSignal
  dsimp only
  split_ifs with h1 h2
  · exact ⟨⟨fun _ => ⟨h1, h2⟩, fun _ => rfl⟩,
      ⟨(fun hc => nomatch hc), fun hc => absurd hc.2 (not_le.mpr h2)⟩,
      ⟨(fun hc => nomatch hc), fun hc => absurd h1 (not_le.mpr hc)⟩⟩
  · push_neg at h2
    exact ⟨⟨(fun hc => nomatch hc), fun hc => absurd hc.2 (not_lt.mpr h2)⟩,
      ⟨fun _ => ⟨h1, h2⟩, fun _ => rfl⟩,
      ⟨(fun hc => nomatch hc), fun hc => absurd h1 (not_le.mpr hc)⟩⟩
  · push_neg at h1
    exact ⟨⟨(fun hc => nomatch hc), fun hc => absurd hc.1 (not_le.mpr h1)⟩,
      ⟨(fun hc => nomatch hc), fun hc => absurd hc.1 (not_le.mpr h1)⟩,
      ⟨fun _ => h1, fun _ => rfl⟩⟩

/-- Claim C6: the base-total computation of main() equals the symmetric
cross-matchup average when both ratings are present, and is exactly the
league-average constant 6.2 (without failing: base_total is total) when
either rating is missing. -/
theorem C6_base_total (ratings : String → Option TeamRating) (home away : String) :
    (∀ h a, ratings home = some h → ratings away = some a →
      base_total ratings home away =
        (h.off_rating + a.def_rating) / 2 + (a.off_rating + h.def_rating) / 2) ∧
    (ratings home = none ∨ ratings away = none →
      base_total ratings home away = 6.2) := by
  unfold base_total LEAGUE_AVG_TOTAL
  constructor
  · intro h a hh ha
    rw [hh, ha]
  · intro hmiss
    cases hrh : ratings home <;> cases hra : ratings away <;>
      simp_all

/-- Witness for C6 at a concrete ratings map missing the away team. -/
theorem C6_base_total_witness :
    base_total (fun t => if t = "NYR" then some ⟨3, 7/2⟩ else none) "NYR" "BOS" = 6.2 :=
  (C6_base_total (fun t => if t = "NYR" then some ⟨3, 7/2⟩ else none) "NYR" "BOS").2
    (Or.inr (by decide!))

/-- Claim C9: my_proj is baseTotal - homeGoalieSkill - awayGoalieSkill
and is strictly decreasing in each goalie skill, the other being
fixed. -/
theorem C9_my_proj (b h a s1 s2 o : ℚ) :
    my_proj b h a = b - h - a ∧
    (s2 < s1 → my_proj b s1 o < my_proj b s2 o ∧ my_proj b o s1 < my_proj b o s2) := by
  unfold my_proj
  exact ⟨rfl, fun hs => ⟨by linarith, by linarith⟩⟩

/-- Witness for C9 at concrete skills 1 > 0. -/
theorem C9_my_proj_witness :
    my_proj 6 1 0 < my_proj 6 0 0 ∧ my_proj 6 0 1 < my_proj 6 0 0 :=
  (C9_my_proj 6 0 0 1 0 0).2 (by norm_num)

/-- Claim C10: get_gsax is total: an absent goalie name yields 0.0
rather than a failure, and a present name yields the skill of the first
matching record. -/
theorem C10_get_gsax (name : String) (df l1 l2 : List GoalieRecord) (r : GoalieRecord) :
    ((∀ x ∈ df, x.Name ≠ name) → get_gsax name df = 0) ∧
    (df = l1 ++ r :: l2 → r.Name = name → (∀ x ∈ l1, x.Name ≠ name) →
      get_gsax name df = r.GSAx) := by
  constructor
  · intro habs
    unfold get_gsax
    rw [List.find?_eq_none.mpr (fun x hx => by
      simpa using habs x hx)]
  · intro hdf hr hl1
    unfold get_gsax
    rw [hdf, List.find?_append, List.find?_eq_none.mpr (fun x hx => by
      simpa using hl1 x hx)]
    simp [List.find?_cons_of_pos, hr]

/-- Witness for C10: a roster with a shadowing duplicate name and a
lookup of an absent name. -/
theorem C10_get_gsax_witness :
    get_gsax "Missing" [⟨"A", "T", 1⟩] = 0 ∧
    get_gsax "A" [⟨"B", "T", 5⟩, ⟨"A", "T", 1⟩, ⟨"A", "U", 2⟩] = 1 := by
  constructor
  · exact (C10_get_gsax "Missing" [⟨"A", "T", 1⟩] [] [] ⟨"", "", 0⟩).1 (by decide!)
  · exact (C10_get_gsax "A" [⟨"B", "T", 5⟩, ⟨"A", "T", 1⟩, ⟨"A", "U", 2⟩]
      [⟨"B", "T", 5⟩] [⟨"A", "U", 2⟩] ⟨"A", "T", 1⟩).2 rfl rfl (by decide!)

/-- Claim C2 (code bug): on an empty goalie DataFrame reconcile_starters
returns the scraped mapping and the empty roster unchanged, so the
resolved name appears in the returned mapping but not in the returned
roster, against the spec's empty-roster contract (synthesized plus
sentinel entries). Downstream, main() would then crash looking up
"Average Goalie" in the empty name list. -/
theorem C2_empty_roster_bug :
    reconcile_starters [("BOS", "Jeremy Swayman")] [] = ([("BOS", "Jeremy Swayman")], []) ∧
    ¬ ("Jeremy Swayman" ∈
        (reconcile_starters [("BOS", "Jeremy Swayman")] []).2.map (fun r => r.Name)) := by
  exact ⟨rfl, by decide!⟩

/- ------------------------------------------------------------------
   Order facts about Python string comparison and the sort/dedup model.
   ------------------------------------------------------------------ -/

theorem pyStrLt_irrefl (l : List Char) : pyStrLt l l = false := by
  induction l with
  | nil => rfl
  | cons c cs ih => simp [pyStrLt, ih]

theorem pyStrLt_trans {x y z : List Char} (h1 : pyStrLt x y = true)
    (h2 : pyStrLt y z = true) : pyStrLt x z = true := by
  induction x generalizing y z with
  | nil =>
    cases y with
    | nil => simp [pyStrLt] at h1
    | cons d ds =>
      cases z with
      | nil => simp [pyStrLt] at h2
      | cons e es => rfl
  | cons c cs ih =>
    cases y with
    | nil => simp [pyStrLt] at h1
    | cons d ds =>
      cases z with
      | nil => simp [pyStrLt] at h2
      | cons e es =>
        simp only [pyStrLt] at h1 h2 ⊢
        by_cases hcd : c < d
        · by_cases hde : d < e
          · simp [lt_trans hcd hde]
          · by_cases hed : e < d
            · rw [if_neg hde, if_pos hed] at h2
              exact absurd h2 (by simp)
            · have hde2 : d = e := le_antisymm (not_lt.mp hed) (not_lt.mp hde)
              subst hde2
              simp [hcd]
        · by_cases hdc : d < c
          · rw [if_neg hcd, if_pos hdc] at h1
            exact absurd h1 (by simp)
          · have hcd2 : c = d := le_antisymm (not_lt.mp hdc) (not_lt.mp hcd)
            subst hcd2
            rw [if_neg hcd, if_neg hdc] at h1
            by_cases hde : c < e
            · simp [hde]
            · by_cases hed : e < c
              · rw [if_neg hde, if_pos hed] at h2
                exact absurd h2 (by simp)
              · have hde2 : c = e := le_antisymm (not_lt.mp hed) (not_lt.mp hde)
                subst hde2
                rw [if_neg hde, if_neg hed] at h2 ⊢
                exact ih h1 h2

theorem pyStrLt_asymm {x y : List Char} (h : pyStrLt x y = true) :
    pyStrLt y x = false := by
  by_contra hc
  have h2 : pyStrLt y x = true := by simpa using hc
  have h3 := pyStrLt_trans h h2
  rw [pyStrLt_irrefl] at h3
  exact absurd h3 (by simp)

theorem pyStrLt_connex : ∀ x y : List Char,
    pyStrLt x y = false → pyStrLt y x = false → x = y := by
  intro x
  induction x with
  | nil =>
    intro y h1 _
    cases y with
    | nil => rfl
    | cons d ds => simp [pyStrLt] at h1
  | cons c cs ih =>
    intro y h1 h2
    cases y with
    | nil => simp [pyStrLt] at h2
    | cons d ds =>
      simp only [pyStrLt] at h1 h2
      by_cases hcd : c < d
      · rw [if_pos hcd] at h1
        exact absurd h1 (by simp)
      · by_cases hdc : d < c
        · rw [if_pos hdc] at h2
          exact absurd h2 (by simp)
        · have hcd2 : c = d := le_antisymm (not_lt.mp hdc) (not_lt.mp hcd)
          subst hcd2
          rw [if_neg hcd, if_neg hdc] at h1
          rw [if_neg hcd, if_neg hdc] at h2
          rw [ih ds h1 h2]

theorem nameLe_total (r s : GoalieRecord) : nameLe r s = true ∨ nameLe s r = true := by
  unfold nameLe
  by_cases h : pyStrLt s.Name.data r.Name.data = true
  · right
    rw [pyStrLt_asymm h]
    rfl
  · left
    rw [Bool.not_eq_true] at h
    rw [h]
    rfl

theorem nameLe_trans {r s t : GoalieRecord} (h1 : nameLe r s = true)
    (h2 : nameLe s t = true) : nameLe r t = true := by
  unfold nameLe at h1 h2 ⊢
  rw [Bool.not_eq_eq_eq_not, Bool.not_true] at h1 h2 ⊢
  by_contra hc
  have hc2 : pyStrLt t.Name.data r.Name.data = true := by simpa using hc
  by_cases hrs : pyStrLt r.Name.data s.Name.data = true
  · have := pyStrLt_trans hc2 hrs
    rw [h2] at this
    exact absurd this (by simp)
  · have heq : r.Name.data = s.Name.data :=
      pyStrLt_connex _ _ (Bool.not_eq_true _ ▸ hrs) h1
    rw [← heq] at h2
    rw [h2] at hc2
    exact absurd hc2 (by simp)

/-- Two lists that are permutations of each other and both pairwise
sorted by an asymmetric relation are equal. -/
theorem eq_of_perm_of_pairwise {α : Type} {r : α → α → Prop}
    (hasym : ∀ a b, r a b → ¬ r b a) :
    ∀ {l1 l2 : List α}, List.Perm l1 l2 → List.Pairwise r l1 →
      List.Pairwise r l2 → l1 = l2 := by
  intro l1
  induction l1 with
  | nil =>
    intro l2 hp _ _
    exact (List.Perm.eq_nil hp.symm).symm
  | cons a t1 ih =>
    intro l2 hp hp1 hp2
    have ha : a ∈ l2 := hp.mem_iff.mp (List.mem_cons_self a t1)
    cases l2 with
    | nil => exact absurd (List.Perm.eq_nil hp) (by simp)
    | cons b t2 =>
      by_cases hab : a = b
      · subst hab
        rw [ih hp.cons_inv (List.pairwise_cons.mp hp1).2 (List.pairwise_cons.mp hp2).2]
      · have hat2 : a ∈ t2 := by
          rcases List.mem_cons.mp ha with h | h
          · exact absurd h hab
          · exact h
        have hba : r b a := (List.pairwise_cons.mp hp2).1 a hat2
        have hb1 : b ∈ a :: t1 := hp.symm.mem_iff.mp (List.mem_cons_self b t2)
        rcases List.mem_cons.mp hb1 with h | h
        · exact absurd h.symm hab
        · exact absurd hba (hasym a b ((List.pairwise_cons.mp hp1).1 b h))

theorem insertByName_perm (r : GoalieRecord) (l : List GoalieRecord) :
    List.Perm (insertByName r l) (r :: l) := by
  induction l with
  | nil => exact List.Perm.refl _
  | cons s rest ih =>
    unfold insertByName
    by_cases h : nameLe r s = true
    · rw [if_pos h]
    · rw [if_neg h]
      exact List.Perm.trans (List.Perm.cons s ih) (List.Perm.swap r s rest)

theorem insertByName_sorted (r : GoalieRecord) (l : List GoalieRecord)
    (hl : List.Pairwise (fun x y => nameLe x y = true) l) :
    List.Pairwise (fun x y => nameLe x y = true) (insertByName r l) := by
  induction l with
  | nil => simp [insertByName]
  | cons s rest ih =>
    unfold insertByName
    by_cases h : nameLe r s = true
    · rw [if_pos h]
      refine List.pairwise_cons.mpr ⟨?_, hl⟩
      intro x hx
      rcases List.mem_cons.mp hx with hx2 | hx2
      · subst hx2
        exact h
      · exact nameLe_trans h ((List.pairwise_cons.mp hl).1 x hx2)
    · rw [if_neg h]
      have hsr : nameLe s r = true := by
        rcases nameLe_total r s with h2 | h2
        · exact absurd h2 h
        · exact h2
      refine List.pairwise_cons.mpr ⟨?_, ih (List.pairwise_cons.mp hl).2⟩
      intro x hx
      rcases List.mem_cons.mp ((insertByName_perm r rest).mem_iff.mp hx) with hx2 | hx2
      · subst hx2
        exact hsr
      · exact (List.pairwise_cons.mp hl).1 x hx2

theorem sortByName_perm (l : List GoalieRecord) : List.Perm (sortByName l) l := by
  induction l with
  | nil => exact List.Perm.refl _
  | cons r rest ih =>
    exact List.Perm.trans (insertByName_perm r (sortByName rest)) (List.Perm.cons r ih)

theorem sortByName_sorted (l : List GoalieRecord) :
    List.Pairwise (fun x y => nameLe x y = true) (sortByName l) := by
  induction l with
  | nil => simp [sortByName]
  | cons r rest ih => exact insertByName_sorted r (sortByName rest) ih

/-- nameLe together with distinct names is asymmetric. -/
theorem nameLe_ne_asymm (a b : GoalieRecord)
    (h : nameLe a b = true ∧ a.Name ≠ b.Name) :
    ¬ (nameLe b a = true ∧ b.Name ≠ a.Name) := by
  rintro ⟨hba, _⟩
  obtain ⟨hab, hne⟩ := h
  unfold nameLe at hab hba
  rw [Bool.not_eq_eq_eq_not, Bool.not_true] at hab hba
  exact hne (String.ext (pyStrLt_connex _ _ hba hab))

theorem sortByName_eq_self (l : List GoalieRecord)
    (hs : List.Pairwise (fun x y => nameLe x y = true) l)
    (hn : (l.map (fun r => r.Name)).Nodup) : sortByName l = l := by
  have hnp : List.Pairwise (fun x y : GoalieRecord => x.Name ≠ y.Name) l :=
    List.pairwise_map.mp hn
  have hl2 : List.Pairwise
      (fun x y : GoalieRecord => nameLe x y = true ∧ x.Name ≠ y.Name) l :=
    hs.and hnp
  have hn1 : ((sortByName l).map (fun r => r.Name)).Nodup :=
    (((sortByName_perm l).map (fun r => r.Name)).nodup_iff).mpr hn
  have hl1 : List.Pairwise
      (fun x y : GoalieRecord => nameLe x y = true ∧ x.Name ≠ y.Name) (sortByName l) :=
    (sortByName_sorted l).and (List.pairwise_map.mp hn1)
  exact eq_of_perm_of_pairwise nameLe_ne_asymm (sortByName_perm l) hl1 hl2

/- ------------------------------------------------------------------
   Facts about dedupGo / dedupByName.
   ------------------------------------------------------------------ -/

theorem dedupGo_mem (seen : List String) (l : List GoalieRecord) (r : GoalieRecord) :
    r ∈ dedupGo seen l ↔
      ¬ r.Name ∈ seen ∧ l.find? (fun x => x.Name == r.Name) = some r := by
  induction l generalizing seen with
  | nil => simp [dedupGo]
  | cons x rest ih =>
    unfold dedupGo
    by_cases hx : x.Name ∈ seen
    · rw [if_pos hx, ih]
      constructor
      · rintro ⟨hns, hf⟩
        refine ⟨hns, ?_⟩
        rw [List.find?_cons_of_neg, hf]
        simp only [beq_iff_eq]
        intro heq
        exact hns (heq ▸ hx)
      · rintro ⟨hns, hf⟩
        refine ⟨hns, ?_⟩
        rw [List.find?_cons_of_neg] at hf
        · exact hf
        · simp only [beq_iff_eq]
          intro heq
          exact hns (heq ▸ hx)
    · rw [if_neg hx]
      constructor
      · intro hmem
        rcases List.mem_cons.mp hmem with hrx | hrec
        · subst hrx
          exact ⟨hx, by rw [List.find?_cons_of_pos _ (by simp)]⟩
        · obtain ⟨hns, hf⟩ := (ih (x.Name :: seen)).mp hrec
          have hne : ¬ r.Name = x.Name := fun heq =>
            hns (heq ▸ List.mem_cons_self _ _)
          refine ⟨fun hmem2 => hns (List.mem_cons_of_mem _ hmem2), ?_⟩
          rw [List.find?_cons_of_neg, hf]
          simp only [beq_iff_eq]
          exact fun heq => hne heq.symm
      · rintro ⟨hns, hf⟩
        by_cases hxr : x.Name = r.Name
        · rw [List.find?_cons_of_pos _ (by simp [hxr])] at hf
          cases hf
          exact List.mem_cons_self _ _
        · rw [List.find?_cons_of_neg _ (by simp [hxr])] at hf
          refine List.mem_cons_of_mem _ ((ih (x.Name :: seen)).mpr ⟨?_, hf⟩)
          intro hmem
          rcases List.mem_cons.mp hmem with h | h
          · exact hxr h.symm
          · exact hns h

theorem dedupGo_names_nodup (l : List GoalieRecord) : ∀ seen : List String,
    ((dedupGo seen l).map (fun r => r.Name)).Nodup ∧
      ∀ n ∈ (dedupGo seen l).map (fun r => r.Name), ¬ n ∈ seen := by
  induction l with
  | nil => intro seen; simp [dedupGo]
  | cons x rest ih =>
    intro seen
    unfold dedupGo
    by_cases hx : x.Name ∈ seen
    · rw [if_pos hx]
      exact ih seen
    · rw [if_neg hx]
      obtain ⟨hnd, hnot⟩ := ih (x.Name :: seen)
      constructor
      · simp only [List.map_cons, List.nodup_cons]
        exact ⟨fun hmem => (hnot _ hmem) (List.mem_cons_self _ _), hnd⟩
      · intro n hn hnseen
        simp only [List.map_cons, List.mem_cons] at hn
        rcases hn with h | h
        · exact hx (h ▸ hnseen)
        · exact hnot n h (List.mem_cons_of_mem _ hnseen)

theorem dedupGo_names_mem (l : List GoalieRecord) (n : String) : ∀ seen : List String,
    (n ∈ (dedupGo seen l).map (fun r => r.Name) ↔
      ¬ n ∈ seen ∧ n ∈ l.map (fun r => r.Name)) := by
  induction l with
  | nil => intro seen; simp [dedupGo]
  | cons x rest ih =>
    intro seen
    unfold dedupGo
    by_cases hx : x.Name ∈ seen
    · rw [if_pos hx, ih]
      simp only [List.map_cons, List.mem_cons]
      constructor
      · rintro ⟨hns, hmem⟩
        exact ⟨hns, Or.inr hmem⟩
      · rintro ⟨hns, hmem | hmem⟩
        · exact absurd (hmem ▸ hx) hns
        · exact ⟨hns, hmem⟩
    · rw [if_neg hx]
      simp only [List.map_cons, List.mem_cons, ih]
      constructor
      · rintro (h | ⟨hns, hmem⟩)
        · exact ⟨h ▸ hx, Or.inl h⟩
        · exact ⟨fun hs => hns (Or.inr hs), Or.inr hmem⟩
      · rintro ⟨hns, h | hmem⟩
        · exact Or.inl h
        · by_cases hnx : n = x.Name
          · exact Or.inl hnx
          · refine Or.inr ⟨?_, hmem⟩
            rintro (h2 | h2)
            · exact hnx h2
            · exact hns h2

theorem dedupByName_mem (l : List GoalieRecord) (r : GoalieRecord) :
    r ∈ dedupByName l ↔ l.find? (fun x => x.Name == r.Name) = some r := by
  unfold dedupByName
  rw [dedupGo_mem]
  simp

theorem dedupByName_names_nodup (l : List GoalieRecord) :
    ((dedupByName l).map (fun r => r.Name)).Nodup :=
  (dedupGo_names_nodup l []).1

theorem dedupByName_names_mem (l : List GoalieRecord) (n : String) :
    n ∈ (dedupByName l).map (fun r => r.Name) ↔ n ∈ l.map (fun r => r.Name) := by
  unfold dedupByName
  rw [dedupGo_names_mem]
  simp

/- ------------------------------------------------------------------
   Characterization of the reconcile_starters fold.
   ------------------------------------------------------------------ -/

theorem reconcileStep_fst (names : List String)
    (acc : List (String × String) × List GoalieRecord) (p : String × String) :
    (reconcileStep names acc p).1 = acc.1 ++ [(p.1, resolveName names p.2)] := by
  unfold reconcileStep resolveName
  by_cases hmem : p.2 ∈ names
  · rw [if_pos hmem, if_pos hmem]
  · rw [if_neg hmem, if_neg hmem]
    cases get_close_matches p.2 names (3/5) with
    | nil => rfl
    | cons m ms => rfl

theorem reconcileStep_snd (names : List String)
    (acc : List (String × String) × List GoalieRecord) (p : String × String) :
    (reconcileStep names acc p).2 = acc.2 ++ (synthRow names p).toList := by
  unfold reconcileStep synthRow
  by_cases hmem : p.2 ∈ names
  · rw [if_pos hmem, if_pos hmem]
    simp
  · rw [if_neg hmem, if_neg hmem]
    cases get_close_matches p.2 names (3/5) with
    | nil => simp
    | cons m ms => simp

theorem reconcile_fold_fst (names : List String) (s : List (String × String)) :
    ∀ acc, (s.foldl (reconcileStep names) acc).1 =
      acc.1 ++ s.map (fun p => (p.1, resolveName names p.2)) := by
  induction s with
  | nil => intro acc; simp
  | cons p rest ih =>
    intro acc
    rw [List.foldl_cons, ih, reconcileStep_fst]
    simp

theorem reconcile_fold_snd (names : List String) (s : List (String × String)) :
    ∀ acc, (s.foldl (reconcileStep names) acc).2 =
      acc.2 ++ s.filterMap (synthRow names) := by
  induction s with
  | nil => intro acc; simp
  | cons p rest ih =>
    intro acc
    rw [List.foldl_cons, ih, reconcileStep_snd]
    have hc : (synthRow names p).toList ++ rest.filterMap (synthRow names) =
        (p :: rest).filterMap (synthRow names) := by
      cases h : synthRow names p <;> simp [List.filterMap_cons, h]
    rw [List.append_assoc, hc]

/-- Closed form of reconcile_starters on a non-empty goalie frame. -/
theorem reconcile_starters_eq (s : List (String × String)) (df : List GoalieRecord)
    (hdf : df ≠ []) :
    reconcile_starters s df =
      (s.map (fun p => (p.1, resolveName (df.map (fun r => r.Name)) p.2)),
       sortByName (dedupByName
         (df ++ s.filterMap (synthRow (df.map (fun r => r.Name))) ++ sentinels))) := by
  unfold reconcile_starters
  rw [if_neg (by simpa [List.isEmpty_iff] using hdf)]
  refine Prod.ext ?_ ?_
  · simpa using reconcile_fold_fst (df.map (fun r => r.Name)) s ([], [])
  · have h2 := reconcile_fold_snd (df.map (fun r => r.Name)) s ([], [])
    simp only [List.nil_append] at h2
    simp [h2]

/- ------------------------------------------------------------------
   More dedup facts: appending rows whose names are already present.
   ------------------------------------------------------------------ -/

theorem dedupGo_all_seen (l : List GoalieRecord) : ∀ seen : List String,
    (∀ x ∈ l, x.Name ∈ seen) → dedupGo seen l = [] := by
  induction l with
  | nil => intro seen _; rfl
  | cons x rest ih =>
    intro seen h
    unfold dedupGo
    rw [if_pos (h x (List.mem_cons_self _ _))]
    exact ih seen (fun y hy => h y (List.mem_cons_of_mem _ hy))

theorem dedupGo_append_subsumed (l1 : List GoalieRecord) (l2 : List GoalieRecord) :
    ∀ seen : List String,
    (∀ x ∈ l2, x.Name ∈ l1.map (fun r => r.Name) ∨ x.Name ∈ seen) →
    dedupGo seen (l1 ++ l2) = dedupGo seen l1 := by
  induction l1 with
  | nil =>
    intro seen h
    simp only [List.nil_append]
    exact dedupGo_all_seen l2 seen (fun x hx => by
      rcases h x hx with h2 | h2
      · simp at h2
      · exact h2)
  | cons y rest ih =>
    intro seen h
    simp only [List.cons_append]
    unfold dedupGo
    by_cases hy : y.Name ∈ seen
    · rw [if_pos hy, if_pos hy]
      refine ih seen (fun x hx => ?_)
      rcases h x hx with h2 | h2
      · simp only [List.map_cons, List.mem_cons] at h2
        rcases h2 with h3 | h3
        · exact Or.inr (h3 ▸ hy)
        · exact Or.inl h3
      · exact Or.inr h2
    · rw [if_neg hy, if_neg hy]
      congr 1
      refine ih (y.Name :: seen) (fun x hx => ?_)
      rcases h x hx with h2 | h2
      · simp only [List.map_cons, List.mem_cons] at h2
        rcases h2 with h3 | h3
        · exact Or.inr (List.mem_cons.mpr (Or.inl h3))
        · exact Or.inl h3
      · exact Or.inr (List.mem_cons_of_mem _ h2)

theorem dedupGo_eq_self (l : List GoalieRecord) : ∀ seen : List String,
    (∀ x ∈ l, ¬ x.Name ∈ seen) → (l.map (fun r => r.Name)).Nodup →
    dedupGo seen l = l := by
  induction l with
  | nil => intro seen _ _; rfl
  | cons x rest ih =>
    intro seen hseen hnd
    unfold dedupGo
    rw [if_neg (hseen x (List.mem_cons_self _ _))]
    simp only [List.map_cons, List.nodup_cons] at hnd
    congr 1
    refine ih (x.Name :: seen) (fun y hy => ?_) hnd.2
    intro hmem
    rcases List.mem_cons.mp hmem with h | h
    · exact hnd.1 (h ▸ List.mem_map_of_mem (fun r => r.Name) hy)
    · exact hseen y (List.mem_cons_of_mem _ hy) h

theorem dedupByName_eq_self (l : List GoalieRecord)
    (hnd : (l.map (fun r => r.Name)).Nodup) : dedupByName l = l :=
  dedupGo_eq_self l [] (fun x _ => by simp) hnd

/- ------------------------------------------------------------------
   Claims C8 and C4.
   ------------------------------------------------------------------ -/

/-- Claim C8: the roster returned by reconcile_starters is sorted by
name in Python string order and deduplicated by name: names are
pairwise distinct, and any returned record whose name occurs in the
input roster is exactly the first input record with that name (a later
same-named record, synthesized row or sentinel never replaces it). -/
theorem C8_dedup_sorted (s : List (String × String)) (df : List GoalieRecord) :
    List.Pairwise (fun x y => nameLe x y = true) (reconcile_starters s df).2 ∧
    ((reconcile_starters s df).2.map (fun r => r.Name)).Nodup ∧
    (∀ r ∈ (reconcile_starters s df).2, r.Name ∈ df.map (fun x => x.Name) →
      df.find? (fun x => x.Name == r.Name) = some r) := by
  by_cases hdf : df = []
  · subst hdf
    unfold reconcile_starters
    simp
  · rw [reconcile_starters_eq s df hdf]
    dsimp only
    set df2 := df ++ s.filterMap (synthRow (df.map (fun r => r.Name))) ++ sentinels with hdf2
    refine ⟨sortByName_sorted _, ?_, ?_⟩
    · exact (((sortByName_perm (dedupByName df2)).map (fun r => r.Name)).nodup_iff).mpr
        (dedupByName_names_nodup df2)
    · intro r hr hrname
      have hrd : r ∈ dedupByName df2 := (sortByName_perm _).mem_iff.mp hr
      have hfind := (dedupByName_mem df2 r).mp hrd
      rw [hdf2, List.append_assoc, List.find?_append] at hfind
      obtain ⟨x, hx, hpx⟩ := List.exists_of_mem_map hrname
      have hsome : (df.find? (fun y => y.Name == r.Name)).isSome :=
        List.find?_isSome.mpr ⟨x, hx, by simp [hpx]⟩
      obtain ⟨z, hz⟩ := Option.isSome_iff_exists.mp hsome
      rw [hz] at hfind
      rw [hz]
      exact hfind

/-- Witness for C8: a roster with a duplicated name; the survivor for
that name is the first input record with it. -/
theorem C8_dedup_sorted_witness :
    [(⟨"B", "T", 5⟩ : GoalieRecord), ⟨"A", "T", 1⟩, ⟨"A", "U", 2⟩].find?
      (fun x => x.Name == (⟨"A", "T", 1⟩ : GoalieRecord).Name) = some ⟨"A", "T", 1⟩ := by
  refine (C8_dedup_sorted [] [⟨"B", "T", 5⟩, ⟨"A", "T", 1⟩, ⟨"A", "U", 2⟩]).2.2
    ⟨"A", "T", 1⟩ ?_ ?_
  · decide!
  · decide!

/-- Claim C4 (amended): when every scraped name has an exact roster
match and the roster is non-empty, reconcile_starters returns every
scraped name unchanged and synthesizes nothing, but it does not return
the roster itself unchanged in general: the returned roster is the
input roster with sentinels appended, deduplicated by name and sorted
by name. When the input roster is already name-sorted, duplicate-free
and contains both sentinel names, it is returned unchanged. -/
theorem C4_exact_match_frame (s : List (String × String)) (df : List GoalieRecord)
    (hdf : df ≠ [])
    (hexact : ∀ p ∈ s, p.2 ∈ df.map (fun r => r.Name)) :
    (reconcile_starters s df).1 = s ∧
    (reconcile_starters s df).2 = sortByName (dedupByName (df ++ sentinels)) ∧
    (List.Pairwise (fun x y => nameLe x y = true) df →
      (df.map (fun r => r.Name)).Nodup →
      "Average Goalie" ∈ df.map (fun r => r.Name) →
      "Backup/Rookie" ∈ df.map (fun r => r.Name) →
      (reconcile_starters s df).2 = df) := by
  have hsynth : s.filterMap (synthRow (df.map (fun r => r.Name))) = [] := by
    rw [List.filterMap_eq_nil_iff]
    intro p hp
    unfold synthRow
    rw [if_pos (hexact p hp)]
  rw [reconcile_starters_eq s df hdf]
  dsimp only
  rw [hsynth, List.append_nil]
  refine ⟨?_, rfl, ?_⟩
  · have : ∀ p ∈ s, (p.1, resolveName (df.map (fun r => r.Name)) p.2) = p := by
      intro p hp
      unfold resolveName
      rw [if_pos (hexact p hp)]
    rw [List.map_congr_left this]
    simp
  · intro hsort hnd hag hbr
    have hded : dedupByName (df ++ sentinels) = dedupByName df := by
      unfold dedupByName
      refine dedupGo_append_subsumed df sentinels [] (fun x hx => Or.inl ?_)
      rcases List.mem_cons.mp hx with h | h
      · rw [h]
        exact hag
      · rcases List.mem_cons.mp h with h2 | h2
        · rw [h2]
          exact hbr
        · exact absurd h2 (by simp)
    rw [hded, dedupByName_eq_self df hnd, sortByName_eq_self df hsort hnd]

/-- Counterexample to C4 as stated: with a roster lacking the sentinels
and an exactly matching scraped mapping, the mapping comes back
unchanged but the returned roster gains the two sentinels and is
re-sorted, so it differs from the input roster. -/
theorem C4_counterexample :
    (reconcile_starters [("NYR", "Igor Shesterkin")]
        [⟨"Igor Shesterkin", "NYR", 3/4⟩]).1 = [("NYR", "Igor Shesterkin")] ∧
    (reconcile_starters [("NYR", "Igor Shesterkin")]
        [⟨"Igor Shesterkin", "NYR", 3/4⟩]).2 =
      [⟨"Average Goalie", "NHL", 0⟩, ⟨"Backup/Rookie", "NHL", -(2/5)⟩,
       ⟨"Igor Shesterkin", "NYR", 3/4⟩] ∧
    (reconcile_starters [("NYR", "Igor Shesterkin")]
        [⟨"Igor Shesterkin", "NYR", 3/4⟩]).2 ≠ [⟨"Igor Shesterkin", "NYR", 3/4⟩] := by
  exact ⟨by decide!, by decide!, by decide!⟩

/-- Witness for C4 at a concrete sorted roster containing the
sentinels: mapping and roster both come back unchanged. -/
theorem C4_exact_match_frame_witness :
    (reconcile_starters [("NYR", "Igor Shesterkin")]
        [⟨"Average Goalie", "NHL", 0⟩, ⟨"Backup/Rookie", "NHL", -(2/5)⟩,
         ⟨"Igor Shesterkin", "NYR", 3/4⟩]).1 = [("NYR", "Igor Shesterkin")] ∧
    (reconcile_starters [("NYR", "Igor Shesterkin")]
        [⟨"Average Goalie", "NHL", 0⟩, ⟨"Backup/Rookie", "NHL", -(2/5)⟩,
         ⟨"Igor Shesterkin", "NYR", 3/4⟩]).2 =
      [⟨"Average Goalie", "NHL", 0⟩, ⟨"Backup/Rookie", "NHL", -(2/5)⟩,
       ⟨"Igor Shesterkin", "NYR", 3/4⟩] := by
  have h := C4_exact_match_frame [("NYR", "Igor Shesterkin")]
    [⟨"Average Goalie", "NHL", 0⟩, ⟨"Backup/Rookie", "NHL", -(2/5)⟩,
     ⟨"Igor Shesterkin", "NYR", 3/4⟩] (by decide!) (by decide!)
  exact ⟨h.1, h.2.2 (by decide!) (by decide!) (by decide!) (by decide!)⟩

/- ------------------------------------------------------------------
   Claim C1: sentinel rows.
   ------------------------------------------------------------------ -/

theorem synthRow_some {names : List String} {p : String × String} {r : GoalieRecord}
    (h : synthRow names p = some r) :
    r.Name = p.2 ∧ r.Team = p.1 ∧ r.GSAx = 0 ∧ ¬ p.2 ∈ names := by
  unfold synthRow at h
  by_cases hmem : p.2 ∈ names
  · rw [if_pos hmem] at h
    cases h
  · rw [if_neg hmem] at h
    cases hg : get_close_matches p.2 names (3/5) with
    | nil =>
      rw [hg] at h
      cases h
      exact ⟨rfl, rfl, rfl, hmem⟩
    | cons m ms =>
      rw [hg] at h
      cases h

theorem dedupByName_subset {l : List GoalieRecord} {r : GoalieRecord}
    (h : r ∈ dedupByName l) : r ∈ l :=
  List.mem_of_find?_eq_some ((dedupByName_mem l r).mp h)

/-- In a frame with pairwise-distinct names, the rows named n form a
singleton whose skill is pinned by a uniform skill property. -/
theorem filter_name_singleton (n : String) (v : ℚ) :
    ∀ l : List GoalieRecord, (l.map (fun r => r.Name)).Nodup →
    n ∈ l.map (fun r => r.Name) →
    (∀ r ∈ l, r.Name = n → r.GSAx = v) →
    (l.filter (fun r => r.Name == n)).map (fun r => r.GSAx) = [v] := by
  intro l
  induction l with
  | nil => intro _ hmem _; simp at hmem
  | cons x rest ih =>
    intro hnd hmem hval
    simp only [List.map_cons, List.nodup_cons] at hnd
    by_cases hx : x.Name = n
    · rw [List.filter_cons_of_pos (by simp [hx])]
      have hrest : rest.filter (fun r => r.Name == n) = [] := by
        rw [List.filter_eq_nil_iff]
        intro r hr
        simp only [beq_iff_eq]
        intro heq
        exact hnd.1 (hx ▸ heq ▸ List.mem_map_of_mem (fun r => r.Name) hr)
      rw [hrest]
      simp [hval x (List.mem_cons_self _ _) hx]
    · rw [List.filter_cons_of_neg (by simp [hx])]
      rw [List.map_cons] at hmem
      rcases List.mem_cons.mp hmem with h | h
      · exact absurd h.symm hx
      · exact ih hnd.2 h (fun r hr => hval r (List.mem_cons_of_mem _ hr))

/-- One reconcile run on a non-empty roster whose rows named
"Average Goalie" / "Backup/Rookie" carry the sentinel skills (and whose
scraped "Backup/Rookie" values, if any, occur in the roster) produces a
roster containing each sentinel name exactly once with the sentinel
skill, and the output satisfies the same conditions again. -/
theorem reconcile_sentinel_main (s : List (String × String)) (df : List GoalieRecord)
    (hdf : df ≠ [])
    (hag : ∀ r ∈ df, r.Name = "Average Goalie" → r.GSAx = 0)
    (hbr : ∀ r ∈ df, r.Name = "Backup/Rookie" → r.GSAx = -(2/5))
    (hsbr : ∀ p ∈ s, p.2 = "Backup/Rookie" → "Backup/Rookie" ∈ df.map (fun r => r.Name)) :
    (reconcile_starters s df).2 ≠ [] ∧
    (∀ r ∈ (reconcile_starters s df).2, r.Name = "Average Goalie" → r.GSAx = 0) ∧
    (∀ r ∈ (reconcile_starters s df).2, r.Name = "Backup/Rookie" → r.GSAx = -(2/5)) ∧
    "Backup/Rookie" ∈ (reconcile_starters s df).2.map (fun r => r.Name) ∧
    ((reconcile_starters s df).2.filter (fun r => r.Name == "Average Goalie")).map
      (fun r => r.GSAx) = [0] ∧
    ((reconcile_starters s df).2.filter (fun r => r.Name == "Backup/Rookie")).map
      (fun r => r.GSAx) = [-(2/5)] := by
  rw [reconcile_starters_eq s df hdf]
  dsimp only
  set names := df.map (fun r => r.Name) with hnames
  set df2 := df ++ s.filterMap (synthRow names) ++ sentinels with hdf2
  have hag2 : ∀ r ∈ df2, r.Name = "Average Goalie" → r.GSAx = 0 := by
    intro r hr hname
    rcases List.mem_append.mp hr with hr2 | hr2
    · rcases List.mem_append.mp hr2 with hr3 | hr3
      · exact hag r hr3 hname
      · obtain ⟨p, hp, hps⟩ := List.mem_filterMap.mp hr3
        exact (synthRow_some hps).2.2.1
    · rcases List.mem_cons.mp hr2 with h3 | h3
      · rw [h3]
      · rcases List.mem_cons.mp h3 with h4 | h4
        · rw [h4] at hname
          exact absurd hname (by decide)
        · simp at h4
  have hbr2 : ∀ r ∈ df2, r.Name = "Backup/Rookie" → r.GSAx = -(2/5) := by
    intro r hr hname
    rcases List.mem_append.mp hr with hr2 | hr2
    · rcases List.mem_append.mp hr2 with hr3 | hr3
      · exact hbr r hr3 hname
      · obtain ⟨p, hp, hps⟩ := List.mem_filterMap.mp hr3
        obtain ⟨hn, _, _, hnm⟩ := synthRow_some hps
        exact absurd (hsbr p hp (by rw [← hn, hname])) (by
          rw [← hname, hn]
          exact hnm)
    · rcases List.mem_cons.mp hr2 with h3 | h3
      · rw [h3] at hname
        exact absurd hname (by decide)
      · rcases List.mem_cons.mp h3 with h4 | h4
        · rw [h4]
        · simp at h4
  have hnodup : ((sortByName (dedupByName df2)).map (fun r => r.Name)).Nodup :=
    (((sortByName_perm (dedupByName df2)).map (fun r => r.Name)).nodup_iff).mpr
      (dedupByName_names_nodup df2)
  have hsub : ∀ r ∈ sortByName (dedupByName df2), r ∈ df2 := fun r hr =>
    dedupByName_subset ((sortByName_perm _).mem_iff.mp hr)
  have hagout : ∀ r ∈ sortByName (dedupByName df2), r.Name = "Average Goalie" → r.GSAx = 0 :=
    fun r hr => hag2 r (hsub r hr)
  have hbrout : ∀ r ∈ sortByName (dedupByName df2), r.Name = "Backup/Rookie" →
      r.GSAx = -(2/5) :=
    fun r hr => hbr2 r (hsub r hr)
  have hagdf2 : "Average Goalie" ∈ df2.map (fun r => r.Name) := by
    rw [hdf2]
    simp [sentinels]
  have hbrdf2 : "Backup/Rookie" ∈ df2.map (fun r => r.Name) := by
    rw [hdf2]
    simp [sentinels]
  have hagmem : "Average Goalie" ∈ (sortByName (dedupByName df2)).map (fun r => r.Name) :=
    (((sortByName_perm (dedupByName df2)).map (fun r => r.Name)).mem_iff).mpr
      ((dedupByName_names_mem df2 _).mpr hagdf2)
  have hbrmem : "Backup/Rookie" ∈ (sortByName (dedupByName df2)).map (fun r => r.Name) :=
    (((sortByName_perm (dedupByName df2)).map (fun r => r.Name)).mem_iff).mpr
      ((dedupByName_names_mem df2 _).mpr hbrdf2)
  refine ⟨?_, hagout, hbrout, hbrmem, ?_, ?_⟩
  · intro hnil
    rw [hnil] at hagmem
    simp at hagmem
  · exact filter_name_singleton _ _ _ hnodup hagmem hagout
  · exact filter_name_singleton _ _ _ hnodup hbrmem hbrout

/-- Any further reconcile runs preserve the sentinel state. -/
theorem reconcile_sentinel_fold (ss : List (List (String × String))) :
    ∀ d : List GoalieRecord,
    d ≠ [] →
    (∀ r ∈ d, r.Name = "Average Goalie" → r.GSAx = 0) →
    (∀ r ∈ d, r.Name = "Backup/Rookie" → r.GSAx = -(2/5)) →
    "Backup/Rookie" ∈ d.map (fun r => r.Name) →
    ((d.filter (fun r => r.Name == "Average Goalie")).map (fun r => r.GSAx) = [0]) →
    ((d.filter (fun r => r.Name == "Backup/Rookie")).map (fun r => r.GSAx) = [-(2/5)]) →
    (((ss.foldl (fun d m => (reconcile_starters m d).2) d).filter
        (fun r => r.Name == "Average Goalie")).map (fun r => r.GSAx) = [0] ∧
     ((ss.foldl (fun d m => (reconcile_starters m d).2) d).filter
        (fun r => r.Name == "Backup/Rookie")).map (fun r => r.GSAx) = [-(2/5)]) := by
  induction ss with
  | nil =>
    intro d _ _ _ _ hf1 hf2
    exact ⟨hf1, hf2⟩
  | cons m ms ih =>
    intro d hne hag hbr hmem hf1 hf2
    obtain ⟨hne2, hag2, hbr2, hmem2, hg1, hg2⟩ :=
      reconcile_sentinel_main m d hne hag hbr (fun p _ hp2 => hp2 ▸ hmem)
    exact ih _ hne2 hag2 hbr2 hmem2 hg1 hg2

/-- Claim C1 (amended): for every non-empty input roster whose rows
named "Average Goalie" (if any) have skill 0.00 and rows named
"Backup/Rookie" (if any) have skill -0.40, and every starter mapping
whose scraped "Backup/Rookie" values (if any) occur in the roster, the
roster produced by reconciliation, and by any number of further
reconciliation runs with arbitrary starter mappings, contains exactly
one record named "Average Goalie" (with skill 0.00) and exactly one
named "Backup/Rookie" (with skill -0.40). -/
theorem C1_sentinels (s : List (String × String)) (ss : List (List (String × String)))
    (df : List GoalieRecord)
    (hdf : df ≠ [])
    (hag : ∀ r ∈ df, r.Name = "Average Goalie" → r.GSAx = 0)
    (hbr : ∀ r ∈ df, r.Name = "Backup/Rookie" → r.GSAx = -(2/5))
    (hsbr : ∀ p ∈ s, p.2 = "Backup/Rookie" → "Backup/Rookie" ∈ df.map (fun r => r.Name)) :
    ((ss.foldl (fun d m => (reconcile_starters m d).2)
        ((reconcile_starters s df).2)).filter
        (fun r => r.Name == "Average Goalie")).map (fun r => r.GSAx) = [0] ∧
    ((ss.foldl (fun d m => (reconcile_starters m d).2)
        ((reconcile_starters s df).2)).filter
        (fun r => r.Name == "Backup/Rookie")).map (fun r => r.GSAx) = [-(2/5)] := by
  obtain ⟨hne2, hag2, hbr2, hmem2, hg1, hg2⟩ :=
    reconcile_sentinel_main s df hdf hag hbr hsbr
  exact reconcile_sentinel_fold ss _ hne2 hag2 hbr2 hmem2 hg1 hg2

/-- Counterexample to C1 as stated: (1) on the empty roster no sentinel
is present at all after reconciliation; (2) a pre-existing
"Average Goalie" row with skill 0.50 survives deduplication (first
write wins), so no skill-0.00 record named "Average Goalie" is
returned; (3) a scraped "Backup/Rookie" matching no roster name is
synthesized with skill 0.00 and the skill -0.40 sentinel is dropped by
deduplication. -/
theorem C1_counterexample :
    ((reconcile_starters [("BOS", "Jeremy Swayman")] []).2.filter
      (fun r => r.Name == "Average Goalie")) = [] ∧
    ((reconcile_starters [] [⟨"Average Goalie", "NHL", 1/2⟩]).2.filter
      (fun r => r.Name == "Average Goalie")).map (fun r => r.GSAx) = [1/2] ∧
    ((reconcile_starters [("BOS", "Backup/Rookie")] [⟨"Igor Shesterkin", "NYR", 3/4⟩]).2.filter
      (fun r => r.Name == "Backup/Rookie")).map (fun r => r.GSAx) = [0] := by
  exact ⟨by decide!, by decide!, by decide!⟩

/-- Witness for C1 at a concrete roster and two further runs. -/
theorem C1_sentinels_witness :
    (([[("NYR", "Igor Shesterkin")], []].foldl
        (fun d m => (reconcile_starters m d).2)
        ((reconcile_starters [("NYR", "Igor Shesterkin")]
          [⟨"Igor Shesterkin", "NYR", 3/4⟩]).2)).filter
        (fun r => r.Name == "Average Goalie")).map (fun r => r.GSAx) = [0] ∧
    (([[("NYR", "Igor Shesterkin")], []].foldl
        (fun d m => (reconcile_starters m d).2)
        ((reconcile_starters [("NYR", "Igor Shesterkin")]
          [⟨"Igor Shesterkin", "NYR", 3/4⟩]).2)).filter
        (fun r => r.Name == "Backup/Rookie")).map (fun r => r.GSAx) = [-(2/5)] :=
  C1_sentinels [("NYR", "Igor Shesterkin")] [[("NYR", "Igor Shesterkin")], []]
    [⟨"Igor Shesterkin", "NYR", 3/4⟩]
    (by decide!) (by decide!) (by decide!) (by decide!)

/- ------------------------------------------------------------------
   Slice lemmas.
   ------------------------------------------------------------------ -/

theorem strSlice_self (a : List Char) : strSlice a 0 a.length = a := by
  unfold strSlice
  simp

theorem strSlice_empty (a : List Char) (lo : Nat) : strSlice a lo lo = [] := by
  unfold strSlice
  simp

theorem strSlice_length (a : List Char) (lo hi : Nat) (h1 : lo ≤ hi) (h2 : hi ≤ a.length) :
    (strSlice a lo hi).length = hi - lo := by
  unfold strSlice
  rw [List.length_take, List.length_drop]
  omega

theorem strSlice_split (a : List Char) (lo mid hi : Nat) (h1 : lo ≤ mid) (h2 : mid ≤ hi) :
    strSlice a lo hi = strSlice a lo mid ++ strSlice a mid hi := by
  unfold strSlice
  have hs : hi - lo = (mid - lo) + (hi - mid) := by omega
  rw [hs, List.take_add]
  congr 2
  rw [List.drop_drop]
  congr 1
  omega

theorem strSlice_singleton (a : List Char) (lo : Nat) (h : lo < a.length) :
    strSlice a lo (lo + 1) = [a.getD lo 'a'] := by
  unfold strSlice
  rw [List.drop_eq_getElem_cons h]
  have hs : lo + 1 - lo = 1 := by omega
  rw [hs]
  rw [show (1 : Nat) = 0 + 1 from rfl, List.take_succ_cons, List.take_zero]
  rw [List.getD_eq_getElem a 'a' h]

theorem strSlice_cons (a : List Char) (lo hi : Nat) (h1 : lo < hi) (h2 : lo < a.length) :
    strSlice a lo hi = a.getD lo 'a' :: strSlice a (lo + 1) hi := by
  rw [strSlice_split a lo (lo + 1) hi (by omega) (by omega), strSlice_singleton a lo h2]
  rfl

theorem strSlice_snoc (a : List Char) (lo hi : Nat) (h1 : lo ≤ hi) (h2 : hi < a.length) :
    strSlice a lo (hi + 1) = strSlice a lo hi ++ [a.getD hi 'a'] := by
  rw [strSlice_split a lo hi (hi + 1) h1 (by omega), strSlice_singleton a hi h2]

/- ------------------------------------------------------------------
   find_longest_match produces a genuine matching block.
   ------------------------------------------------------------------ -/

theorem b2j_mem {b : List Char} {c : Char} {j : Nat} (h : j ∈ b2j b c) :
    j < b.length ∧ b.getD j 'a' = c := by
  simp only [b2j] at h
  have h2 : j ∈ indicesOf b c := by
    by_cases hp : 200 ≤ b.length ∧ b.length / 100 + 1 < (indicesOf b c).length
    · rw [if_pos hp] at h
      simp at h
    · rw [if_neg hp] at h
      exact h
  unfold indicesOf at h2
  rw [List.mem_filter, List.mem_range] at h2
  exact ⟨h2.1, by simpa using h2.2⟩

theorem EntryOK_toBlock {a b : List Char} {alo blo bhi i j k : Nat} (ahi : Nat)
    (h : EntryOK a b alo blo bhi (i + 1) j k) (hi : i < ahi) :
    BlockOK a b alo ahi blo bhi (i + 1 - k) (j + 1 - k) k := by
  obtain ⟨h1, h2, h3, h4, h5⟩ := h
  refine ⟨by omega, by omega, by omega, by omega, ?_⟩
  have e1 : i + 1 - k + k = i + 1 := by omega
  have e2 : j + 1 - k + k = j + 1 := by omega
  rw [e1, e2]
  exact h5

theorem innerStep_ok {a b : List Char} {alo ahi blo bhi : Nat} {prev : Nat → Nat} {i : Nat}
    (hia : i < a.length) (hialo : alo ≤ i) (hiahi : i < ahi)
    (hprev : RowOK a b alo blo bhi i prev)
    {st : FLMState}
    (hbest : BlockOK a b alo ahi blo bhi st.besti st.bestj st.bestsize)
    (hrow : RowOK a b alo blo bhi (i + 1) st.j2len)
    {j : Nat} (hj1 : blo ≤ j) (hj2 : j < bhi) (hj3 : j < b.length)
    (hj4 : b.getD j 'a' = a.getD i 'a') :
    BlockOK a b alo ahi blo bhi (innerStep prev i st j).besti (innerStep prev i st j).bestj
      (innerStep prev i st j).bestsize ∧
    RowOK a b alo blo bhi (i + 1) (innerStep prev i st j).j2len := by
  have hk : EntryOK a b alo blo bhi (i + 1) j ((if j = 0 then 0 else prev (j - 1)) + 1) := by
    by_cases hj0 : j = 0
    · subst hj0
      rw [if_pos rfl]
      refine ⟨by omega, by omega, hj2, hj3, ?_⟩
      have e2 : i + 1 - 1 = i := by omega
      rw [show (0 : Nat) + 1 - 1 = 0 from rfl, e2,
        strSlice_singleton a i hia, strSlice_singleton b 0 hj3, hj4]
    · rw [if_neg hj0]
      by_cases hm : 0 < prev (j - 1)
      · obtain ⟨p1, p2, p3, p4, p5⟩ := hprev (j - 1) hm
        refine ⟨by omega, by omega, hj2, hj3, ?_⟩
        have e1 : i + 1 - (prev (j - 1) + 1) = i - prev (j - 1) := by omega
        have e2 : j + 1 - (prev (j - 1) + 1) = j - prev (j - 1) := by omega
        rw [e1, e2]
        have e3 : j - 1 + 1 = j := by omega
        rw [e3] at p5
        rw [strSlice_snoc a (i - prev (j - 1)) i (by omega) hia,
            strSlice_snoc b (j - prev (j - 1)) j (by omega) hj3, p5, hj4]
      · have hm0 : prev (j - 1) = 0 := by omega
        rw [hm0]
        refine ⟨by omega, by omega, hj2, hj3, ?_⟩
        have e1 : i + 1 - (0 + 1) = i := by omega
        have e2 : j + 1 - (0 + 1) = j := by omega
        rw [e1, e2, strSlice_singleton a i hia, strSlice_singleton b j hj3, hj4]
  constructor
  · simp only [innerStep]
    by_cases hlt : st.bestsize < (if j = 0 then 0 else prev (j - 1)) + 1
    · rw [if_pos hlt]
      exact EntryOK_toBlock ahi hk hiahi
    · rw [if_neg hlt]
      exact hbest
  · simp only [innerStep]
    by_cases hlt : st.bestsize < (if j = 0 then 0 else prev (j - 1)) + 1
    · rw [if_pos hlt]
      intro j2 hj2len
      dsimp only at hj2len ⊢
      by_cases hjj : j2 = j
      · subst hjj
        rw [if_pos rfl]
        exact hk
      · rw [if_neg hjj] at hj2len ⊢
        exact hrow j2 hj2len
    · rw [if_neg hlt]
      intro j2 hj2len
      dsimp only at hj2len ⊢
      by_cases hjj : j2 = j
      · subst hjj
        rw [if_pos rfl]
        exact hk
      · rw [if_neg hjj] at hj2len ⊢
        exact hrow j2 hj2len

theorem innerFold_ok {a b : List Char} {alo ahi blo bhi : Nat} {prev : Nat → Nat} {i : Nat}
    (hia : i < a.length) (hialo : alo ≤ i) (hiahi : i < ahi)
    (hprev : RowOK a b alo blo bhi i prev) :
    ∀ (js : List Nat) (st : FLMState),
    (∀ j ∈ js, blo ≤ j ∧ j < bhi ∧ j < b.length ∧ b.getD j 'a' = a.getD i 'a') →
    BlockOK a b alo ahi blo bhi st.besti st.bestj st.bestsize →
    RowOK a b alo blo bhi (i + 1) st.j2len →
    BlockOK a b alo ahi blo bhi (js.foldl (innerStep prev i) st).besti
      (js.foldl (innerStep prev i) st).bestj (js.foldl (innerStep prev i) st).bestsize ∧
    RowOK a b alo blo bhi (i + 1) (js.foldl (innerStep prev i) st).j2len := by
  intro js
  induction js with
  | nil =>
    intro st _ hb hr
    exact ⟨hb, hr⟩
  | cons j js ih =>
    intro st hjs hb hr
    rw [List.foldl_cons]
    obtain ⟨h1, h2, h3, h4⟩ := hjs j (List.mem_cons_self _ _)
    obtain ⟨hb2, hr2⟩ := innerStep_ok hia hialo hiahi hprev hb hr h1 h2 h3 h4
    exact ih _ (fun j2 hj2 => hjs j2 (List.mem_cons_of_mem _ hj2)) hb2 hr2

theorem processRow_ok {a b : List Char} {alo ahi blo bhi : Nat} {i : Nat} {st : FLMState}
    (hia : i < a.length) (hialo : alo ≤ i) (hiahi : i < ahi)
    (hbest : BlockOK a b alo ahi blo bhi st.besti st.bestj st.bestsize)
    (hrow : RowOK a b alo blo bhi i st.j2len) :
    BlockOK a b alo ahi blo bhi (processRow a b blo bhi st i).besti
      (processRow a b blo bhi st i).bestj (processRow a b blo bhi st i).bestsize ∧
    RowOK a b alo blo bhi (i + 1) (processRow a b blo bhi st i).j2len := by
  simp only [processRow]
  refine innerFold_ok hia hialo hiahi hrow _ _ ?_ ?_ ?_
  · intro j hj
    rw [List.mem_filter] at hj
    obtain ⟨hj1, hj2⟩ := hj
    obtain ⟨hlen, hchar⟩ := b2j_mem hj1
    simp only [Bool.and_eq_true, decide_eq_true_eq] at hj2
    exact ⟨hj2.1, hj2.2, hlen, hchar⟩
  · exact hbest
  · intro j hj
    simp at hj

theorem flmLoop_aux (a b : List Char) (alo ahi blo bhi : Nat)
    (hya : ahi ≤ a.length) :
    ∀ (n start : Nat) (st : FLMState), alo ≤ start → start + n = ahi →
    BlockOK a b alo ahi blo bhi st.besti st.bestj st.bestsize →
    RowOK a b alo blo bhi start st.j2len →
    BlockOK a b alo ahi blo bhi
      ((List.range' start n).foldl (processRow a b blo bhi) st).besti
      ((List.range' start n).foldl (processRow a b blo bhi) st).bestj
      ((List.range' start n).foldl (processRow a b blo bhi) st).bestsize := by
  intro n
  induction n with
  | zero =>
    intro start st _ _ hb _
    simpa using hb
  | succ n ih =>
    intro start st hs1 hs2 hb hr
    rw [List.range'_succ, List.foldl_cons]
    obtain ⟨hb2, hr2⟩ := processRow_ok (by omega) hs1 (by omega) hb hr
    exact ih (start + 1) _ (by omega) (by omega) hb2 hr2

theorem flmLoop_ok (a b : List Char) (alo ahi blo bhi : Nat)
    (h1 : alo ≤ ahi) (h2 : blo ≤ bhi) (hya : ahi ≤ a.length) :
    BlockOK a b alo ahi blo bhi (flmLoop a b alo ahi blo bhi).besti
      (flmLoop a b alo ahi blo bhi).bestj (flmLoop a b alo ahi blo bhi).bestsize := by
  unfold flmLoop
  refine flmLoop_aux a b alo ahi blo bhi hya (ahi - alo) alo _ (le_refl _) (by omega) ?_ ?_
  · dsimp only
    refine ⟨le_refl _, by omega, le_refl _, by omega, ?_⟩
    rw [show alo + 0 = alo from rfl, show blo + 0 = blo from rfl,
      strSlice_empty, strSlice_empty]
  · intro j hj
    simp at hj

theorem extendLeft_ok (a b : List Char) (alo ahi blo bhi : Nat)
    (hya : ahi ≤ a.length) (hyb : bhi ≤ b.length) :
    ∀ (besti bestj bestsize : Nat),
    BlockOK a b alo ahi blo bhi besti bestj bestsize →
    BlockOK a b alo ahi blo bhi (extendLeft a b alo blo besti bestj bestsize).1
      (extendLeft a b alo blo besti bestj bestsize).2.1
      (extendLeft a b alo blo besti bestj bestsize).2.2 := by
  intro besti
  induction besti with
  | zero =>
    intro bestj bestsize hb
    simpa only [extendLeft] using hb
  | succ bi ih =>
    intro bestj bestsize hb
    simp only [extendLeft]
    by_cases hg : alo ≤ bi ∧ blo < bestj ∧ a.getD bi 'a' == b.getD (bestj - 1) 'a'
    · rw [if_pos hg]
      obtain ⟨hg1, hg2, hg3⟩ := hg
      have hchar : a.getD bi 'a' = b.getD (bestj - 1) 'a' := eq_of_beq hg3
      obtain ⟨hb1, hb2, hb3, hb4, hb5⟩ := hb
      refine ih (bestj - 1) (bestsize + 1) ⟨hg1, by omega, by omega, by omega, ?_⟩
      have e1 : bi + (bestsize + 1) = (bi + 1) + bestsize := by omega
      have e2 : (bestj - 1) + (bestsize + 1) = bestj + bestsize := by omega
      rw [e1, e2]
      have hbia : bi < a.length := by omega
      have hbjb : bestj - 1 < b.length := by omega
      rw [strSlice_cons a bi ((bi + 1) + bestsize) (by omega) hbia,
          strSlice_cons b (bestj - 1) (bestj + bestsize) (by omega) hbjb]
      have e3 : bestj - 1 + 1 = bestj := by omega
      rw [e3, hchar, hb5]
    · rw [if_neg hg]
      exact hb

theorem extendRight_ok (a b : List Char) (alo ahi blo bhi besti bestj : Nat)
    (hya : ahi ≤ a.length) (hyb : bhi ≤ b.length) :
    ∀ (fuel bestsize : Nat),
    BlockOK a b alo ahi blo bhi besti bestj bestsize →
    BlockOK a b alo ahi blo bhi besti bestj
      (extendRight a b ahi bhi besti bestj fuel bestsize) := by
  intro fuel
  induction fuel with
  | zero =>
    intro bestsize hb
    simpa only [extendRight] using hb
  | succ fuel ih =>
    intro bestsize hb
    simp only [extendRight]
    by_cases hg : besti + bestsize < ahi ∧ bestj + bestsize < bhi ∧
        a.getD (besti + bestsize) 'a' == b.getD (bestj + bestsize) 'a'
    · rw [if_pos hg]
      obtain ⟨hg1, hg2, hg3⟩ := hg
      obtain ⟨hb1, hb2, hb3, hb4, hb5⟩ := hb
      refine ih (bestsize + 1) ⟨hb1, by omega, hb3, by omega, ?_⟩
      have e1 : besti + (bestsize + 1) = (besti + bestsize) + 1 := by omega
      have e2 : bestj + (bestsize + 1) = (bestj + bestsize) + 1 := by omega
      rw [e1, e2, strSlice_snoc a besti (besti + bestsize) (by omega) (by omega),
          strSlice_snoc b bestj (bestj + bestsize) (by omega) (by omega),
          hb5, eq_of_beq hg3]
    · rw [if_neg hg]
      exact hb

theorem find_longest_match_ok (a b : List Char) (alo ahi blo bhi : Nat)
    (h1 : alo ≤ ahi) (h2 : blo ≤ bhi) (hya : ahi ≤ a.length) (hyb : bhi ≤ b.length) :
    BlockOK a b alo ahi blo bhi (find_longest_match a b alo ahi blo bhi).1
      (find_longest_match a b alo ahi blo bhi).2.1
      (find_longest_match a b alo ahi blo bhi).2.2 := by
  unfold find_longest_match
  dsimp only
  have hfl := flmLoop_ok a b alo ahi blo bhi h1 h2 hya
  have hL := extendLeft_ok a b alo ahi blo bhi hya hyb _ _ _ hfl
  exact extendRight_ok a b alo ahi blo bhi _ _ hya hyb _ _ hL

/- ------------------------------------------------------------------
   The three ratios are ordered: ratio <= quick_ratio <=
   real_quick_ratio.
   ------------------------------------------------------------------ -/

theorem card_eq_sum_over (s : Multiset Char) (A : Finset Char) (h : s.toFinset ⊆ A) :
    ∑ x ∈ A, s.count x = Multiset.card s := by
  rw [← Multiset.toFinset_sum_count_eq s]
  refine (Finset.sum_subset h ?_).symm
  intro x _ hx
  simpa [Multiset.count_eq_zero] using fun hmem => hx (Multiset.mem_toFinset.mpr hmem)

theorem interM_superadd (x1 y1 x2 y2 : List Char) :
    interM x1 y1 + interM x2 y2 ≤ interM (x1 ++ x2) (y1 ++ y2) := by
  unfold interM
  have hx : ((x1 ++ x2 : List Char) : Multiset Char) =
      (x1 : Multiset Char) + (x2 : Multiset Char) := by
    exact_mod_cast Multiset.coe_add x1 x2
  have hy : ((y1 ++ y2 : List Char) : Multiset Char) =
      (y1 : Multiset Char) + (y2 : Multiset Char) := by
    exact_mod_cast Multiset.coe_add y1 y2
  rw [hx, hy, ← Multiset.card_add]
  refine Multiset.card_le_card ?_
  rw [Multiset.le_iff_count]
  intro c
  simp only [Multiset.count_inter, Multiset.count_add]
  omega

theorem interM_self (x : List Char) : interM x x = x.length := by
  unfold interM
  have h : (x : Multiset Char) ∩ (x : Multiset Char) = (x : Multiset Char) := by
    ext c
    simp [Multiset.count_inter]
  rw [h]
  exact_mod_cast Multiset.coe_card x

theorem interM_le_left (x y : List Char) : interM x y ≤ x.length := by
  unfold interM
  have h := Multiset.card_le_card
    (Multiset.inter_le_left (x : Multiset Char) (y : Multiset Char))
  simpa using h

theorem interM_le_right (x y : List Char) : interM x y ≤ y.length := by
  unfold interM
  have h := Multiset.card_le_card
    (Multiset.inter_le_right (x : Multiset Char) (y : Multiset Char))
  simpa using h

theorem matchedSize_le_inter (a b : List Char) :
    ∀ (fuel alo ahi blo bhi : Nat), alo ≤ ahi → blo ≤ bhi →
      ahi ≤ a.length → bhi ≤ b.length →
      matchedSize a b fuel alo ahi blo bhi ≤
        interM (strSlice a alo ahi) (strSlice b blo bhi) := by
  intro fuel
  induction fuel with
  | zero =>
    intro alo ahi blo bhi _ _ _ _
    simp [matchedSize]
  | succ fuel ih =>
    intro alo ahi blo bhi h1 h2 hya hyb
    simp only [matchedSize]
    obtain ⟨hb1, hb2, hb3, hb4, hb5⟩ := find_longest_match_ok a b alo ahi blo bhi h1 h2 hya hyb
    set i := (find_longest_match a b alo ahi blo bhi).1 with hi
    set j := (find_longest_match a b alo ahi blo bhi).2.1 with hj
    set k := (find_longest_match a b alo ahi blo bhi).2.2 with hk
    by_cases hk0 : k = 0
    · rw [if_pos hk0]
      exact Nat.zero_le _
    · rw [if_neg hk0]
      have hsa : strSlice a alo ahi =
          (strSlice a alo i ++ strSlice a i (i + k)) ++ strSlice a (i + k) ahi := by
        rw [← strSlice_split a alo i (i + k) hb1 (by omega),
            ← strSlice_split a alo (i + k) ahi (by omega) hb2]
      have hsb : strSlice b blo bhi =
          (strSlice b blo j ++ strSlice b j (j + k)) ++ strSlice b (j + k) bhi := by
        rw [← strSlice_split b blo j (j + k) hb3 (by omega),
            ← strSlice_split b blo (j + k) bhi (by omega) hb4]
      rw [hsa, hsb]
      have hsup1 := interM_superadd (strSlice a alo i) (strSlice b blo j)
        (strSlice a i (i + k)) (strSlice b j (j + k))
      have hsup2 := interM_superadd
        (strSlice a alo i ++ strSlice a i (i + k))
        (strSlice b blo j ++ strSlice b j (j + k))
        (strSlice a (i + k) ahi) (strSlice b (j + k) bhi)
      have hmid : interM (strSlice a i (i + k)) (strSlice b j (j + k)) = k := by
        rw [hb5, interM_self, strSlice_length b j (j + k) (by omega) (by omega)]
        omega
      have hleft : (if alo < i ∧ blo < j then matchedSize a b fuel alo i blo j else 0) ≤
          interM (strSlice a alo i) (strSlice b blo j) := by
        split_ifs with hg
        · exact ih alo i blo j hb1 hb3 (by omega) (by omega)
        · exact Nat.zero_le _
      have hright : (if i + k < ahi ∧ j + k < bhi then
            matchedSize a b fuel (i + k) ahi (j + k) bhi else 0) ≤
          interM (strSlice a (i + k) ahi) (strSlice b (j + k) bhi) := by
        split_ifs with hg
        · exact ih (i + k) ahi (j + k) bhi (by omega) (by omega) hya hyb
        · exact Nat.zero_le _
      omega

theorem interM_nil (b : List Char) : interM [] b = 0 := by
  unfold interM
  simp

theorem interM_snoc (p b : List Char) (c : Char) :
    interM (p ++ [c]) b = interM p b + (if p.count c < b.count c then 1 else 0) := by
  unfold interM
  have hco : ((p ++ [c] : List Char) : Multiset Char) = (p : Multiset Char) + {c} := by
    exact_mod_cast Multiset.coe_add p [c]
  rw [hco]
  set s := (p : Multiset Char) with hsdef
  set t := (b : Multiset Char) with htdef
  set A : Finset Char := ((s + {c}) ∩ t).toFinset ∪ (s ∩ t).toFinset ∪ {c} with hA
  have hc1 : Multiset.card ((s + {c}) ∩ t) = ∑ x ∈ A, ((s + {c}) ∩ t).count x :=
    (card_eq_sum_over _ _ (fun x hx => by
      simp only [hA, Finset.mem_union]
      exact Or.inl (Or.inl hx))).symm
  have hc2 : Multiset.card (s ∩ t) = ∑ x ∈ A, (s ∩ t).count x :=
    (card_eq_sum_over _ _ (fun x hx => by
      simp only [hA, Finset.mem_union]
      exact Or.inl (Or.inr hx))).symm
  have hpt : ∀ x ∈ A, ((s + {c}) ∩ t).count x =
      (s ∩ t).count x + (if x = c then (if s.count c < t.count c then 1 else 0) else 0) := by
    intro x _
    by_cases hxc : x = c
    · subst hxc
      simp only [Multiset.count_inter, Multiset.count_add, Multiset.count_singleton]
      split_ifs <;> omega
    · simp [Multiset.count_inter, Multiset.count_add, Multiset.count_singleton, hxc]
  rw [hc1, hc2, Finset.sum_congr rfl hpt, Finset.sum_add_distrib]
  congr 1
  rw [Finset.sum_ite_eq' A c (fun _ => if s.count c < t.count c then 1 else 0)]
  rw [if_pos (by
    simp only [hA, Finset.mem_union]
    exact Or.inr (by simp))]
  have hs : s.count c = p.count c := by
    rw [hsdef]
    exact_mod_cast Multiset.coe_count c p
  have ht : t.count c = b.count c := by
    rw [htdef]
    exact_mod_cast Multiset.coe_count c b
  rw [hs, ht]

theorem quickAux (b : List Char) :
    ∀ (rest p : List Char) (st : (Char → Int) × (Char → Bool) × Nat),
    (∀ c, st.2.1 c = true ↔ c ∈ p) →
    (∀ c, c ∈ p → st.1 c = (b.count c : Int) - (p.count c : Int)) →
    st.2.2 = interM p b →
    (rest.foldl (quickStep b) st).2.2 = interM (p ++ rest) b := by
  intro rest
  induction rest with
  | nil =>
    intro p st _ _ hm
    simpa using hm
  | cons c cs ih =>
    intro p st hseen havail hm
    rw [List.foldl_cons]
    have hnumb : (if st.2.1 c then st.1 c else (b.count c : Int)) =
        (b.count c : Int) - (p.count c : Int) := by
      by_cases hc : st.2.1 c = true
      · rw [if_pos hc, havail c ((hseen c).mp hc)]
      · rw [if_neg hc]
        have hnm : ¬ c ∈ p := fun hmem => hc ((hseen c).mpr hmem)
        rw [List.count_eq_zero_of_not_mem hnm]
        simp
    have hstep : (p ++ [c]) ++ cs = p ++ (c :: cs) := by simp
    rw [← hstep]
    refine ih (p ++ [c]) (quickStep b st c) ?_ ?_ ?_
    · intro c2
      simp only [quickStep]
      constructor
      · intro h
        rcases Bool.or_eq_true_iff.mp h with h2 | h2
        · exact List.mem_append.mpr (Or.inr (by simpa using eq_of_beq h2))
        · exact List.mem_append.mpr (Or.inl ((hseen c2).mp h2))
      · intro h
        rcases List.mem_append.mp h with h2 | h2
        · exact Bool.or_eq_true_iff.mpr (Or.inr ((hseen c2).mpr h2))
        · have : c2 = c := by simpa using h2
          exact Bool.or_eq_true_iff.mpr (Or.inl (by simp [this]))
    · intro c2 hmem
      simp only [quickStep]
      by_cases hc2 : c2 = c
      · subst hc2
        rw [if_pos rfl, hnumb]
        have hcnt : (p ++ [c2]).count c2 = p.count c2 + 1 := by
          simp
        rw [hcnt]
        push_cast
        ring
      · rw [if_neg hc2]
        have hcnt : (p ++ [c]).count c2 = p.count c2 := by
          simp [List.count_append, List.count_cons, hc2]
        rw [hcnt]
        refine havail c2 ?_
        rcases List.mem_append.mp hmem with h2 | h2
        · exact h2
        · exact absurd (by simpa using h2) hc2
    · simp only [quickStep]
      rw [interM_snoc, ← hm]
      by_cases hlt : p.count c < b.count c
      · rw [if_pos hlt, if_pos (by rw [hnumb]; omega)]
      · rw [if_neg hlt, if_neg (by rw [hnumb]; omega)]
        omega

theorem quickMatches_eq_inter (a b : List Char) : quickMatches a b = interM a b := by
  unfold quickMatches
  have h := quickAux b a [] ((fun _ => 0), (fun _ => false), 0)
    (fun c => by simp) (fun c hc => by simp at hc) (by simp [interM_nil])
  simpa using h

theorem calcRatio_mono {m1 m2 n : Nat} (h : m1 ≤ m2) : calcRatio m1 n ≤ calcRatio m2 n := by
  unfold calcRatio
  split_ifs with hn
  · exact le_refl _
  · have hpos : (0 : ℚ) < (n : ℚ) := by
      exact_mod_cast Nat.pos_of_ne_zero hn
    rw [div_le_div_iff hpos hpos]
    have hc : (m1 : ℚ) ≤ (m2 : ℚ) := by exact_mod_cast h
    nlinarith

theorem seqRatio_le_quick (a b : List Char) : seqRatio a b ≤ quick_ratio a b := by
  unfold seqRatio quick_ratio
  refine calcRatio_mono ?_
  rw [quickMatches_eq_inter]
  have h := matchedSize_le_inter a b (a.length + 1) 0 a.length 0 b.length
    (by omega) (by omega) (le_refl _) (le_refl _)
  simpa [strSlice_self] using h

theorem quick_le_real (a b : List Char) : quick_ratio a b ≤ real_quick_ratio a b := by
  unfold quick_ratio real_quick_ratio
  refine calcRatio_mono ?_
  rw [quickMatches_eq_inter]
  exact le_min (interM_le_left a b) (interM_le_right a b)

/- ------------------------------------------------------------------
   get_close_matches with n = 1: selection lemmas.
   ------------------------------------------------------------------ -/

theorem tupleGt_irrefl (q : ℚ × String) : tupleGt q q = false := by
  unfold tupleGt
  rw [if_neg (lt_irrefl q.1), if_neg (lt_irrefl q.1), pyStrLt_irrefl]

theorem tupleGt_asymm {q p : ℚ × String} (h : tupleGt q p = true) : tupleGt p q = false := by
  unfold tupleGt at h ⊢
  by_cases h1 : p.1 < q.1
  · rw [if_neg (lt_asymm h1), if_pos h1]
  · rw [if_neg h1] at h
    by_cases h2 : q.1 < p.1
    · rw [if_pos h2] at h
      exact absurd h (by simp)
    · rw [if_neg h2] at h
      rw [if_neg h2, if_neg h1, pyStrLt_asymm h]

theorem foldMax_eq {x : ℚ × String} :
    ∀ (l : List (ℚ × String)) (cur : ℚ × String),
    (cur = x ∨ (tupleGt x cur = true ∧ x ∈ l)) →
    (∀ q ∈ l, q = x ∨ tupleGt x q = true) →
    l.foldl (fun best q => if tupleGt q best then q else best) cur = x := by
  intro l
  induction l with
  | nil =>
    intro cur hcur _
    rcases hcur with h | ⟨_, h⟩
    · simpa using h
    · simp at h
  | cons q qs ih =>
    intro cur hcur hall
    rw [List.foldl_cons]
    rcases hall q (List.mem_cons_self _ _) with hq | hq
    · rw [hq]
      by_cases hstep : tupleGt x cur = true
      · rw [if_pos hstep]
        exact ih x (Or.inl rfl) (fun r hr => hall r (List.mem_cons_of_mem _ hr))
      · rw [if_neg hstep]
        rcases hcur with hc | ⟨hgt, _⟩
        · exact ih cur (Or.inl hc) (fun r hr => hall r (List.mem_cons_of_mem _ hr))
        · exact absurd hgt hstep
    · have hqx : ¬ q = x := by
        intro he
        rw [he, tupleGt_irrefl] at hq
        exact absurd hq (by simp)
      by_cases hqc : tupleGt q cur = true
      · rw [if_pos hqc]
        rcases hcur with hc | ⟨hgt, hmem⟩
        · rw [hc, tupleGt_asymm hq] at hqc
          exact absurd hqc (by simp)
        · have hx_qs : x ∈ qs := by
            rcases List.mem_cons.mp hmem with h | h
            · exact absurd h.symm hqx
            · exact h
          exact ih q (Or.inr ⟨hq, hx_qs⟩) (fun r hr => hall r (List.mem_cons_of_mem _ hr))
      · rw [if_neg hqc]
        rcases hcur with hc | ⟨hgt, hmem⟩
        · exact ih cur (Or.inl hc) (fun r hr => hall r (List.mem_cons_of_mem _ hr))
        · have hx_qs : x ∈ qs := by
            rcases List.mem_cons.mp hmem with h | h
            · exact absurd h.symm hqx
            · exact h
          exact ih cur (Or.inr ⟨hgt, hx_qs⟩) (fun r hr => hall r (List.mem_cons_of_mem _ hr))

theorem gclEntry_some {word : String} {cutoff : ℚ} {y : String} {q : ℚ × String}
    (h : gclEntry word cutoff y = some q) :
    q = (seqRatio y.data word.data, y) ∧ cutoff ≤ seqRatio y.data word.data := by
  unfold gclEntry at h
  by_cases hg : cutoff ≤ real_quick_ratio y.data word.data ∧
      cutoff ≤ quick_ratio y.data word.data ∧ cutoff ≤ seqRatio y.data word.data
  · rw [if_pos hg] at h
    cases h
    exact ⟨rfl, hg.2.2⟩
  · rw [if_neg hg] at h
    cases h

theorem gclEntry_of_ratio {word : String} {cutoff : ℚ} {y : String}
    (h : cutoff ≤ seqRatio y.data word.data) :
    gclEntry word cutoff y = some (seqRatio y.data word.data, y) := by
  unfold gclEntry
  rw [if_pos ⟨le_trans (le_trans h (seqRatio_le_quick _ _)) (quick_le_real _ _),
      le_trans h (seqRatio_le_quick _ _), h⟩]

theorem gclEntry_none {word : String} {cutoff : ℚ} {y : String}
    (h : seqRatio y.data word.data < cutoff) :
    gclEntry word cutoff y = none := by
  unfold gclEntry
  rw [if_neg]
  rintro ⟨_, _, h3⟩
  exact absurd h3 (not_le.mpr h)

theorem get_close_matches_best (word : String) (ps : List String) (cutoff : ℚ)
    (best : String) (hmem : best ∈ ps)
    (hge : cutoff ≤ seqRatio best.data word.data)
    (hstrict : ∀ y ∈ ps, y ≠ best →
      seqRatio y.data word.data < seqRatio best.data word.data) :
    get_close_matches word ps cutoff = [best] := by
  unfold get_close_matches
  have hxin : (seqRatio best.data word.data, best) ∈ ps.filterMap (gclEntry word cutoff) :=
    List.mem_filterMap.mpr ⟨best, hmem, gclEntry_of_ratio hge⟩
  have hall : ∀ q ∈ ps.filterMap (gclEntry word cutoff),
      q = (seqRatio best.data word.data, best) ∨
      tupleGt (seqRatio best.data word.data, best) q = true := by
    intro q hq
    obtain ⟨y, hy, hyq⟩ := List.mem_filterMap.mp hq
    obtain ⟨hq1, _⟩ := gclEntry_some hyq
    by_cases hyb : y = best
    · subst hyb
      exact Or.inl hq1
    · refine Or.inr ?_
      rw [hq1]
      unfold tupleGt
      rw [if_pos (hstrict y hy hyb)]
  cases hres : ps.filterMap (gclEntry word cutoff) with
  | nil =>
    rw [hres] at hxin
    simp at hxin
  | cons h t =>
    rw [hres] at hall hxin
    have hcur : h = (seqRatio best.data word.data, best) ∨
        (tupleGt (seqRatio best.data word.data, best) h = true ∧
         (seqRatio best.data word.data, best) ∈ t) := by
      rcases hall h (List.mem_cons_self _ _) with h1 | h1
      · exact Or.inl h1
      · refine Or.inr ⟨h1, ?_⟩
        rcases List.mem_cons.mp hxin with h2 | h2
        · rw [← h2, tupleGt_irrefl] at h1
          exact absurd h1 (by simp)
        · exact h2
    have hfold := foldMax_eq t h hcur (fun r hr => hall r (List.mem_cons_of_mem _ hr))
    simp only [nlargest1]
    rw [hfold]
    rfl

theorem get_close_matches_nil (word : String) (ps : List String) (cutoff : ℚ)
    (h : ∀ y ∈ ps, seqRatio y.data word.data < cutoff) :
    get_close_matches word ps cutoff = [] := by
  unfold get_close_matches
  have hres : ps.filterMap (gclEntry word cutoff) = [] := by
    rw [List.filterMap_eq_nil_iff]
    exact fun y hy => gclEntry_none (h y hy)
  rw [hres]
  rfl

/- ------------------------------------------------------------------
   Association-list lookups (Python dict reads).
   ------------------------------------------------------------------ -/

theorem lookup_eq_some_of_mem {β : Type} {l : List (String × β)} {k : String} {v : β}
    (hnd : (l.map Prod.fst).Nodup) (hmem : (k, v) ∈ l) : l.lookup k = some v := by
  induction l with
  | nil => simp at hmem
  | cons p rest ih =>
    simp only [List.map_cons, List.nodup_cons] at hnd
    rcases List.mem_cons.mp hmem with h | h
    · rw [← h]
      simp [List.lookup]
    · have hkey : k ∈ rest.map Prod.fst := List.mem_map.mpr ⟨(k, v), h, rfl⟩
      have hne : (k == p.1) = false := by
        rw [beq_eq_false_iff_ne]
        intro he
        exact hnd.1 (he ▸ hkey)
      cases p with
      | mk k2 v2 =>
        simp only [List.lookup]
        rw [show (k == k2) = false from hne]
        exact ih hnd.2 h

theorem lookup_eq_none_of_not_mem {β : Type} {l : List (String × β)} {k : String}
    (h : ¬ k ∈ l.map Prod.fst) : l.lookup k = none := by
  induction l with
  | nil => rfl
  | cons p rest ih =>
    simp only [List.map_cons, List.mem_cons] at h
    push_neg at h
    have hne : (k == p.1) = false := by
      rw [beq_eq_false_iff_ne]
      exact h.1
    cases p with
    | mk k2 v2 =>
      simp only [List.lookup]
      rw [show (k == k2) = false from hne]
      exact ih h.2

theorem lookup_map_resolve (s : List (String × String)) (names : List String)
    (team scraped : String) (hnd : (s.map Prod.fst).Nodup) (hmem : (team, scraped) ∈ s) :
    (s.map (fun p => (p.1, resolveName names p.2))).lookup team =
      some (resolveName names scraped) := by
  induction s with
  | nil => simp at hmem
  | cons p rest ih =>
    simp only [List.map_cons, List.nodup_cons] at hnd
    rcases List.mem_cons.mp hmem with h | h
    · rw [← h]
      simp [List.lookup]
    · have hkey : team ∈ rest.map Prod.fst := List.mem_map.mpr ⟨(team, scraped), h, rfl⟩
      have hne : (team == p.1) = false := by
        rw [beq_eq_false_iff_ne]
        intro he
        exact hnd.1 (he ▸ hkey)
      cases p with
      | mk k2 v2 =>
        simp only [List.map_cons, List.lookup]
        rw [show (team == k2) = false from hne]
        exact ih hnd.2 h

/-- In a frame with pairwise-distinct names, the rows sharing the name
of a member form exactly that singleton. -/
theorem filter_name_eq_singleton (l : List GoalieRecord) (r0 : GoalieRecord)
    (hnd : (l.map (fun r => r.Name)).Nodup) (hmem : r0 ∈ l) :
    l.filter (fun r => r.Name == r0.Name) = [r0] := by
  induction l with
  | nil => simp at hmem
  | cons x rest ih =>
    simp only [List.map_cons, List.nodup_cons] at hnd
    rcases List.mem_cons.mp hmem with h | h
    · subst h
      rw [List.filter_cons_of_pos (by simp)]
      have hrest : rest.filter (fun r => r.Name == r0.Name) = [] := by
        rw [List.filter_eq_nil_iff]
        intro r hr
        simp only [beq_iff_eq]
        intro he
        exact hnd.1 (he ▸ List.mem_map_of_mem (fun r => r.Name) hr)
      rw [hrest]
    · have hne : (x.Name == r0.Name) = false := by
        rw [beq_eq_false_iff_ne]
        intro he
        exact hnd.1 (he ▸ List.mem_map_of_mem (fun r => r.Name) h)
      rw [List.filter_cons_of_neg (by simp [hne])]
      exact ih hnd.2 h

/- ------------------------------------------------------------------
   Claims C3 and C7.
   ------------------------------------------------------------------ -/

/-- Claim C3 (amended): for a non-empty roster and a (team, scraped)
pair with no exact roster match: when some roster name reaches ratio
0.6 against the scraped name and strictly beats every other roster
name, reconciliation assigns exactly that name; when every roster name
is below 0.6, reconciliation assigns the scraped name itself and the
returned roster contains exactly one record named scraped with skill
0.00 — and when this pair is the only one carrying that scraped value,
that record is exactly (scraped, team, 0.00). -/
theorem C3_fuzzy_match (s : List (String × String)) (df : List GoalieRecord)
    (team scraped : String)
    (hdf : df ≠ [])
    (hkeys : (s.map Prod.fst).Nodup)
    (hmem : (team, scraped) ∈ s)
    (hnoexact : ¬ scraped ∈ df.map (fun r => r.Name)) :
    (∀ best, best ∈ df.map (fun r => r.Name) →
      3/5 ≤ seqRatio best.data scraped.data →
      (∀ y ∈ df.map (fun r => r.Name), y ≠ best →
        seqRatio y.data scraped.data < seqRatio best.data scraped.data) →
      (reconcile_starters s df).1.lookup team = some best) ∧
    ((∀ y ∈ df.map (fun r => r.Name), seqRatio y.data scraped.data < 3/5) →
      (reconcile_starters s df).1.lookup team = some scraped ∧
      ((reconcile_starters s df).2.filter (fun r => r.Name == scraped)).map
        (fun r => r.GSAx) = [0] ∧
      ((∀ q ∈ s, q.2 = scraped → q = (team, scraped)) →
        (reconcile_starters s df).2.filter (fun r => r.Name == scraped) =
          [⟨scraped, team, 0⟩])) := by
  rw [reconcile_starters_eq s df hdf]
  dsimp only
  constructor
  · intro best hbmem hge hstrict
    have hres : resolveName (df.map (fun r => r.Name)) scraped = best := by
      unfold resolveName
      rw [if_neg hnoexact,
        get_close_matches_best scraped (df.map (fun r => r.Name)) (3/5) best hbmem hge hstrict]
    rw [lookup_map_resolve s (df.map (fun r => r.Name)) team scraped hkeys hmem, hres]
  · intro hlow
    have hgcm : get_close_matches scraped (df.map (fun r => r.Name)) (3/5) = [] :=
      get_close_matches_nil _ _ _ hlow
    have hres : resolveName (df.map (fun r => r.Name)) scraped = scraped := by
      unfold resolveName
      rw [if_neg hnoexact, hgcm]
    have hsynth0 : synthRow (df.map (fun r => r.Name)) (team, scraped) =
        some ⟨scraped, team, 0⟩ := by
      unfold synthRow
      rw [if_neg hnoexact, hgcm]
    have hrow_mem : (⟨scraped, team, 0⟩ : GoalieRecord) ∈
        s.filterMap (synthRow (df.map (fun r => r.Name))) :=
      List.mem_filterMap.mpr ⟨(team, scraped), hmem, hsynth0⟩
    obtain ⟨r1, hr1⟩ : ∃ r1, (s.filterMap (synthRow (df.map (fun r => r.Name)))).find?
        (fun r => r.Name == scraped) = some r1 :=
      Option.isSome_iff_exists.mp (List.find?_isSome.mpr ⟨_, hrow_mem, by simp⟩)
    have hr1mem := List.mem_of_find?_eq_some hr1
    have hr1name : r1.Name = scraped := by simpa using List.find?_some hr1
    obtain ⟨p, hp, hps⟩ := List.mem_filterMap.mp hr1mem
    obtain ⟨hpn, hpt, hpg, _⟩ := synthRow_some hps
    have hfdf : df.find? (fun r => r.Name == scraped) = none :=
      List.find?_eq_none.mpr (fun x hx => by
        simp only [beq_iff_eq]
        intro he
        exact hnoexact (he ▸ List.mem_map_of_mem (fun r => r.Name) hx))
    have hfdf2 : (df ++ s.filterMap (synthRow (df.map (fun r => r.Name))) ++
        sentinels).find? (fun r => r.Name == scraped) = some r1 := by
      rw [List.find?_append, List.find?_append, hfdf, hr1]
      rfl
    have hmem_df2 : r1 ∈ df ++ s.filterMap (synthRow (df.map (fun r => r.Name))) ++
        sentinels :=
      List.mem_append.mpr (Or.inl (List.mem_append.mpr (Or.inr hr1mem)))
    have hmem_names : scraped ∈ (df ++ s.filterMap (synthRow (df.map (fun r => r.Name))) ++
        sentinels).map (fun r => r.Name) :=
      hr1name ▸ List.mem_map_of_mem (fun r => r.Name) hmem_df2
    have hdd_mem : scraped ∈ (dedupByName (df ++
        s.filterMap (synthRow (df.map (fun r => r.Name))) ++ sentinels)).map
        (fun r => r.Name) :=
      (dedupByName_names_mem _ scraped).mpr hmem_names
    obtain ⟨r0, hr0mem, hr0name⟩ := List.mem_map.mp hdd_mem
    have hr0find := (dedupByName_mem _ r0).mp hr0mem
    have hpred_eq : (fun x : GoalieRecord => x.Name == r0.Name) =
        (fun r : GoalieRecord => r.Name == scraped) := by
      funext x
      rw [hr0name]
    rw [hpred_eq, hfdf2] at hr0find
    have hr0eq : r0 = r1 := by
      cases hr0find
      rfl
    have hout_nodup : ((sortByName (dedupByName (df ++
        s.filterMap (synthRow (df.map (fun r => r.Name))) ++ sentinels))).map
        (fun r => r.Name)).Nodup :=
      (((sortByName_perm _).map (fun r => r.Name)).nodup_iff).mpr (dedupByName_names_nodup _)
    have hr0out : r0 ∈ sortByName (dedupByName (df ++
        s.filterMap (synthRow (df.map (fun r => r.Name))) ++ sentinels)) :=
      (sortByName_perm _).mem_iff.mpr hr0mem
    have hfilter : (sortByName (dedupByName (df ++
        s.filterMap (synthRow (df.map (fun r => r.Name))) ++ sentinels))).filter
        (fun r => r.Name == scraped) = [r0] := by
      have hfs := filter_name_eq_singleton _ r0 hout_nodup hr0out
      rwa [hr0name] at hfs
    refine ⟨by rw [lookup_map_resolve s _ team scraped hkeys hmem, hres], ?_, ?_⟩
    · rw [hfilter, hr0eq]
      simp [hpg]
    · intro huniq
      have hp2 : p.2 = scraped := by
        rw [← hpn, hr1name]
      have hpeq : p = (team, scraped) := huniq p hp hp2
      rw [hpeq, hsynth0] at hps
      have hr1eq : r1 = ⟨scraped, team, 0⟩ := by
        cases hps
        rfl
      rw [hfilter, hr0eq, hr1eq]

/-- Counterexample to C3 as stated: on the empty roster every roster
name vacuously has similarity below 0.6, yet reconciliation inserts
nothing (early return): the returned roster is empty. -/
theorem C3_counterexample :
    reconcile_starters [("BOS", "Xqz")] [] = ([("BOS", "Xqz")], []) ∧
    ¬ ((⟨"Xqz", "BOS", 0⟩ : GoalieRecord) ∈ (reconcile_starters [("BOS", "Xqz")] []).2) := by
  exact ⟨rfl, by decide!⟩

/-- Witness for C3: a fuzzy hit ("abc" against roster name "abcd",
ratio 6/7 >= 0.6) and a synthesis ("abc" against "zzzz", ratio 0). -/
theorem C3_fuzzy_match_witness :
    (reconcile_starters [("BOS", "abc")] [⟨"abcd", "T", 1/2⟩]).1.lookup "BOS" =
      some "abcd" ∧
    ((reconcile_starters [("BOS", "abc")] [⟨"zzzz", "T", 1/2⟩]).1.lookup "BOS" =
      some "abc" ∧
     (reconcile_starters [("BOS", "abc")] [⟨"zzzz", "T", 1/2⟩]).2.filter
       (fun r => r.Name == "abc") = [⟨"abc", "BOS", 0⟩]) := by
  constructor
  · exact (C3_fuzzy_match [("BOS", "abc")] [⟨"abcd", "T", 1/2⟩] "BOS" "abc"
      (by decide!) (by decide!) (by decide!) (by decide!)).1 "abcd"
      (by decide!) (by decide!) (by decide!)
  · have h := (C3_fuzzy_match [("BOS", "abc")] [⟨"zzzz", "T", 1/2⟩] "BOS" "abc"
      (by decide!) (by decide!) (by decide!) (by decide!)).2 (by decide!)
    exact ⟨h.1, h.2.2 (by decide!)⟩

/-- Claim C7: match_vegas_odds returns the exact value for an exact
key, the value of the single strictly-best fuzzy key at ratio >= 0.5
otherwise, and 6.5 when nothing qualifies; over the empty mapping it
returns 6.5 for every name. -/
theorem C7_match_line (odds : List (String × ℚ)) (name : String)
    (hkeys : (odds.map Prod.fst).Nodup) :
    match_vegas_odds name [] = 6.5 ∧
    (∀ v, (name, v) ∈ odds → match_vegas_odds name odds = v) ∧
    (¬ name ∈ odds.map Prod.fst →
      (∀ best v, (best, v) ∈ odds →
        1/2 ≤ seqRatio best.data name.data →
        (∀ y ∈ odds.map Prod.fst, y ≠ best →
          seqRatio y.data name.data < seqRatio best.data name.data) →
        match_vegas_odds name odds = v) ∧
      ((∀ y ∈ odds.map Prod.fst, seqRatio y.data name.data < 1/2) →
        match_vegas_odds name odds = 6.5)) := by
  refine ⟨rfl, ?_, ?_⟩
  · intro v hv
    unfold match_vegas_odds
    rw [if_neg (by
      simp only [List.isEmpty_iff]
      exact List.ne_nil_of_mem hv)]
    rw [lookup_eq_some_of_mem hkeys hv]
  · intro hnomem
    constructor
    · intro best v hbv hge hstrict
      unfold match_vegas_odds
      rw [if_neg (by
        simp only [List.isEmpty_iff]
        exact List.ne_nil_of_mem hbv)]
      rw [lookup_eq_none_of_not_mem hnomem]
      dsimp only
      rw [get_close_matches_best name (odds.map Prod.fst) (1/2) best
        (List.mem_map.mpr ⟨(best, v), hbv, rfl⟩) hge hstrict]
      show (odds.lookup best).getD 0 = v
      rw [lookup_eq_some_of_mem hkeys hbv]
      rfl
    · intro hlow
      by_cases hodds : odds = []
      · subst hodds
        rfl
      · unfold match_vegas_odds
        rw [if_neg (by simpa [List.isEmpty_iff] using hodds)]
        rw [lookup_eq_none_of_not_mem hnomem]
        dsimp only
        rw [get_close_matches_nil name (odds.map Prod.fst) (1/2) hlow]

/-- Witness for C7: a fuzzy hit over a one-key mapping and the empty
mapping default. -/
theorem C7_match_line_witness :
    match_vegas_odds "abc" [("ab", 6)] = 6 ∧ match_vegas_odds "abc" [] = 6.5 := by
  constructor
  · exact ((C7_match_line [("ab", 6)] "abc" (by decide!)).2.2 (by decide!)).1 "ab" 6
      (by decide!) (by decide!) (by decide!)
  · exact (C7_match_line [] "abc" (by decide!)).1

/- ------------------------------------------------------------------
   The fuel of matchedSize is irrelevant once it exceeds the window
   width: the recursion of get_matching_blocks is faithfully captured.
   ------------------------------------------------------------------ -/

theorem matchedSize_succ (a b : List Char) (fuel alo ahi blo bhi : Nat) :
    matchedSize a b (fuel + 1) alo ahi blo bhi =
      (if (find_longest_match a b alo ahi blo bhi).2.2 = 0 then 0
       else
        (if alo < (find_longest_match a b alo ahi blo bhi).1 ∧
            blo < (find_longest_match a b alo ahi blo bhi).2.1 then
          matchedSize a b fuel alo (find_longest_match a b alo ahi blo bhi).1 blo
            (find_longest_match a b alo ahi blo bhi).2.1 else 0) +
        (find_longest_match a b alo ahi blo bhi).2.2 +
        (if (find_longest_match a b alo ahi blo bhi).1 +
              (find_longest_match a b alo ahi blo bhi).2.2 < ahi ∧
            (find_longest_match a b alo ahi blo bhi).2.1 +
              (find_longest_match a b alo ahi blo bhi).2.2 < bhi then
          matchedSize a b fuel
            ((find_longest_match a b alo ahi blo bhi).1 +
              (find_longest_match a b alo ahi blo bhi).2.2) ahi
            ((find_longest_match a b alo ahi blo bhi).2.1 +
              (find_longest_match a b alo ahi blo bhi).2.2) bhi else 0)) := rfl

theorem matchedSize_fuel_stable (a b : List Char) :
    ∀ (fuel alo ahi blo bhi : Nat), ahi - alo < fuel → alo ≤ ahi → blo ≤ bhi →
      ahi ≤ a.length → bhi ≤ b.length →
      matchedSize a b fuel alo ahi blo bhi = matchedSize a b (fuel + 1) alo ahi blo bhi := by
  intro fuel
  induction fuel with
  | zero =>
    intro alo ahi blo bhi hf _ _ _ _
    omega
  | succ f ih =>
    intro alo ahi blo bhi hf h1 h2 hya hyb
    rw [matchedSize_succ a b f, matchedSize_succ a b (f + 1)]
    obtain ⟨hb1, hb2, hb3, hb4, _⟩ := find_longest_match_ok a b alo ahi blo bhi h1 h2 hya hyb
    set i := (find_longest_match a b alo ahi blo bhi).1
    set j := (find_longest_match a b alo ahi blo bhi).2.1
    set k := (find_longest_match a b alo ahi blo bhi).2.2
    by_cases hk0 : k = 0
    · rw [if_pos hk0, if_pos hk0]
    · rw [if_neg hk0, if_neg hk0]
      have hleft : (if alo < i ∧ blo < j then matchedSize a b f alo i blo j else 0) =
          (if alo < i ∧ blo < j then matchedSize a b (f + 1) alo i blo j else 0) := by
        split_ifs with hg
        · exact ih alo i blo j (by omega) hb1 hb3 (by omega) (by omega)
        · rfl
      have hright : (if i + k < ahi ∧ j + k < bhi then
            matchedSize a b f (i + k) ahi (j + k) bhi else 0) =
          (if i + k < ahi ∧ j + k < bhi then
            matchedSize a b (f + 1) (i + k) ahi (j + k) bhi else 0) := by
        split_ifs with hg
        · exact ih (i + k) ahi (j + k) bhi (by omega) (by omega) (by omega) hya hyb
        · rfl
      rw [hleft, hright]

theorem matchedSize_fuel_ge (a b : List Char) :
    ∀ (extra fuel alo ahi blo bhi : Nat), ahi - alo < fuel → alo ≤ ahi → blo ≤ bhi →
      ahi ≤ a.length → bhi ≤ b.length →
      matchedSize a b fuel alo ahi blo bhi = matchedSize a b (fuel + extra) alo ahi blo bhi := by
  intro extra
  induction extra with
  | zero =>
    intro fuel alo ahi blo bhi _ _ _ _ _
    rfl
  | succ e ih =>
    intro fuel alo ahi blo bhi hf h1 h2 hya hyb
    rw [ih fuel alo ahi blo bhi hf h1 h2 hya hyb,
      matchedSize_fuel_stable a b (fuel + e) alo ahi blo bhi (by omega) h1 h2 hya hyb]
    rfl
